import Mathlib

/-!
Verification of the treap engine of the Basics repository
(src/trees/treap.h, src/trees/treap.hpp, src/trees/treap_base.hpp,
src/trees/implicit_treap.hpp) against its natural-language specification.

Trees are embedded shallowly: a node stores its priority, its payload
(the key for the key-ordered treap, the element value for the implicit
treap; both are instantiated at `Int`), its two children and the cached
subtree-size field `_size` exactly as `treap_node_base` stores it.
Every child-pointer mutation of the C++ code happens through
`set_left`/`set_right`, which immediately recompute the size field from
the children's stored sizes; the embedding mirrors that.
-/

namespace Basics

/-- A treap node: priority, payload, left child, right child and the
stored `_size` field (`treap_node_base` members `_priority`, `_left`,
`_right`, `_size`; `TreapNode` members `_priority`, `key`, `_left`,
`_right`, `_size`).  `nil` is the null pointer. -/
inductive TNode where
  | nil : TNode
  | node (prio : Nat) (pay : Int) (left right : TNode) (sz : Nat) : TNode
deriving DecidableEq, Repr

namespace TNode

/-- The stored `_size` of a possibly-null node: `left_size`/`right_size`
in `treap_node_base` read the child's `_size` field, 0 for a null child;
the container-level `size()` reads the root's `_size`, 0 when empty. -/
def storedSize : TNode → Nat
  | nil => 0
  | node _ _ _ _ sz => sz

/-- The real number of nodes in a subtree (ignoring the cached field). -/
def realSize : TNode → Nat
  | nil => 0
  | node _ _ l r _ => realSize l + realSize r + 1

/-- `treap_node_base::set_left` / `TreapNode::setLeft`: replace the left
child and immediately recompute `_size` via `update()`
(`_size = left_size() + right_size() + 1`, from the stored fields). -/
def set_left : TNode → TNode → TNode
  | nil, _ => nil
  | node p k _ r _, l => node p k l r (storedSize l + storedSize r + 1)

/-- `treap_node_base::set_right` / `TreapNode::setRight`. -/
def set_right : TNode → TNode → TNode
  | nil, _ => nil
  | node p k l _ _, r => node p k l r (storedSize l + storedSize r + 1)

/-- In-order traversal listing each node's (priority, payload) pair. -/
def inorder : TNode → List (Nat × Int)
  | nil => []
  | node p k l r _ => inorder l ++ (p, k) :: inorder r

/-- In-order payload sequence: the key sequence of the key-ordered treap,
the element sequence of the implicit treap. -/
def elems (t : TNode) : List Int := (inorder t).map Prod.snd

/-- In-order list of the nodes themselves (each with its whole subtree):
position `i` of this list is the node of in-order rank `i`. -/
def inorderNodes : TNode → List TNode
  | nil => []
  | node p k l r sz => inorderNodes l ++ node p k l r sz :: inorderNodes r

/-- Priority of a possibly-null node, 0 for null: a null child imposes
no heap constraint, which the 0 default makes vacuous. -/
def rootPrio : TNode → Nat
  | nil => 0
  | node p _ _ _ _ => p

/-- Payload of the root node (0 for null, never used on null). -/
def rootPay : TNode → Int
  | nil => 0
  | node _ k _ _ _ => k

/-- Invariant C of the spec: every node's stored `_size` equals
`1 + size(left) + size(right)` (stored sizes of the children). -/
def sizeOk : TNode → Prop
  | nil => True
  | node _ _ l r sz => sz = storedSize l + storedSize r + 1 ∧ sizeOk l ∧ sizeOk r

/-- Invariant A of the spec: every node's priority is `>=` the
priorities of its existing children. -/
def heapOk : TNode → Prop
  | nil => True
  | node p _ l r _ => rootPrio l ≤ p ∧ rootPrio r ≤ p ∧ heapOk l ∧ heapOk r

def sizeOkDec : (t : TNode) → Decidable (sizeOk t)
  | nil => .isTrue trivial
  | node _ _ l r sz => by
    haveI := sizeOkDec l
    haveI := sizeOkDec r
    exact decidable_of_iff (sz = storedSize l + storedSize r + 1 ∧ sizeOk l ∧ sizeOk r) Iff.rfl

instance (t : TNode) : Decidable (sizeOk t) := sizeOkDec t

def heapOkDec : (t : TNode) → Decidable (heapOk t)
  | nil => .isTrue trivial
  | node p _ l r _ => by
    haveI := heapOkDec l
    haveI := heapOkDec r
    exact decidable_of_iff (rootPrio l ≤ p ∧ rootPrio r ≤ p ∧ heapOk l ∧ heapOk r) Iff.rfl

instance (t : TNode) : Decidable (heapOk t) := heapOkDec t

/-- Invariant B for the key-ordered treap: the in-order key sequence is
strictly increasing. -/
def Sorted (t : TNode) : Prop := (elems t).Pairwise (· < ·)

instance (t : TNode) : Decidable (Sorted t) := by
  unfold Sorted; infer_instance

@[simp] theorem storedSize_nil : storedSize nil = 0 := rfl

@[simp] theorem storedSize_node (p k l r sz) : storedSize (node p k l r sz) = sz := rfl

@[simp] theorem realSize_nil : realSize nil = 0 := rfl

@[simp] theorem realSize_node (p k l r sz) :
    realSize (node p k l r sz) = realSize l + realSize r + 1 := rfl

@[simp] theorem inorder_nil : inorder nil = [] := rfl

@[simp] theorem inorder_node (p k l r sz) :
    inorder (node p k l r sz) = inorder l ++ (p, k) :: inorder r := rfl

@[simp] theorem elems_nil : elems nil = [] := rfl

@[simp] theorem elems_node (p k l r sz) :
    elems (node p k l r sz) = elems l ++ k :: elems r := by
  simp [elems]

@[simp] theorem inorderNodes_nil : inorderNodes nil = [] := rfl

@[simp] theorem inorderNodes_node (p k l r sz) :
    inorderNodes (node p k l r sz) = inorderNodes l ++ node p k l r sz :: inorderNodes r := rfl

@[simp] theorem set_left_node (p k l₀ r sz l) :
    set_left (node p k l₀ r sz) l = node p k l r (storedSize l + storedSize r + 1) := rfl

@[simp] theorem set_right_node (p k l r₀ sz r) :
    set_right (node p k l r₀ sz) r = node p k l r (storedSize l + storedSize r + 1) := rfl

@[simp] theorem rootPrio_nil : rootPrio nil = 0 := rfl

@[simp] theorem rootPrio_node (p k l r sz) : rootPrio (node p k l r sz) = p := rfl

@[simp] theorem rootPay_node (p k l r sz) : rootPay (node p k l r sz) = k := rfl

@[simp] theorem sizeOk_nil : sizeOk nil := trivial

theorem sizeOk_node {p k l r sz} :
    sizeOk (node p k l r sz) ↔ sz = storedSize l + storedSize r + 1 ∧ sizeOk l ∧ sizeOk r :=
  Iff.rfl

theorem heapOk_node {p k l r sz} :
    heapOk (node p k l r sz) ↔ rootPrio l ≤ p ∧ rootPrio r ≤ p ∧ heapOk l ∧ heapOk r :=
  Iff.rfl

/-- With Invariant C, the stored size is the real node count. -/
theorem storedSize_eq_realSize {t : TNode} (h : sizeOk t) : storedSize t = realSize t := by
  induction t with
  | nil => rfl
  | node p k l r sz ihl ihr =>
    rcases h with ⟨hsz, hl, hr⟩
    simp [hsz, ihl hl, ihr hr]

theorem length_inorder (t : TNode) : (inorder t).length = realSize t := by
  induction t with
  | nil => rfl
  | node p k l r sz ihl ihr => simp [ihl, ihr]; omega

theorem length_elems (t : TNode) : (elems t).length = realSize t := by
  simp [elems, length_inorder]

theorem storedSize_eq_length_elems {t : TNode} (h : sizeOk t) :
    storedSize t = (elems t).length := by
  rw [length_elems, storedSize_eq_realSize h]

theorem length_inorderNodes (t : TNode) : (inorderNodes t).length = realSize t := by
  induction t with
  | nil => rfl
  | node p k l r sz ihl ihr => simp [ihl, ihr]; omega

theorem rootPay_map_inorderNodes (t : TNode) :
    (inorderNodes t).map rootPay = elems t := by
  induction t with
  | nil => rfl
  | node p k l r sz ihl ihr => simp [ihl, ihr, rootPay, elems]

end TNode

open TNode

/-! ## Key-ordered treap: split and merge

`TreapNode::merge` (src/trees/treap.h:349-365) and the recursive reading
of `treap::merge` (src/trees/treap.hpp:301-350) are the same algorithm;
the comparator of the `nstd` variant is instantiated at `<` on `Int`,
matching `treap.h`'s use of the raw `<`/`>` operators.  The iterative,
explicit-stack form of the `nstd` code is embedded separately below
(`mergePhase1`/`mergePhase2`/`mergeIter`) and proved equal to `mergeH`. -/

/-- `TreapNode<Key>::merge` (treap.h): if either node is null return the
other; swap so that `node1` has the smaller root key; the root of higher
priority wins and recursively merges its inner child with the loser. -/
def mergeH : TNode → TNode → TNode
  | .nil, t2 => t2
  | .node p1 k1 l1 r1 s1, .nil => .node p1 k1 l1 r1 s1
  | .node p1 k1 l1 r1 s1, .node p2 k2 l2 r2 s2 =>
    if k2 < k1 then
      -- std::swap(node1, node2): continue with node1 = the second node
      if p2 > p1 then
        set_right (.node p2 k2 l2 r2 s2) (mergeH r2 (.node p1 k1 l1 r1 s1))
      else
        set_left (.node p1 k1 l1 r1 s1) (mergeH (.node p2 k2 l2 r2 s2) l1)
    else
      if p1 > p2 then
        set_right (.node p1 k1 l1 r1 s1) (mergeH r1 (.node p2 k2 l2 r2 s2))
      else
        set_left (.node p2 k2 l2 r2 s2) (mergeH (.node p1 k1 l1 r1 s1) l2)
termination_by t1 t2 => realSize t1 + realSize t2
decreasing_by all_goals simp [realSize]; omega

/-- The comparison `treap::split` performs at each visited node:
`KeyIncluded ? !_comparator(key, top->get_key()) : _comparator(top->get_key(), key)`
with the comparator instantiated at `<`. -/
def splitCompare (incl : Bool) (key k : Int) : Bool :=
  if incl then !decide (key < k) else decide (k < key)

/-- Recursive reading of `treap::split<KeyIncluded>` (treap.hpp:352-392):
descend to the side selected by `splitCompare`, reattach the opposite
part of the recursive split with `set_right`/`set_left`.
`splitK false` also embeds `TreapNode::split` (treap.h:367-380), whose
test `node->key < value` is the same comparison. -/
def splitK (incl : Bool) : TNode → Int → TNode × TNode
  | .nil, _ => (.nil, .nil)
  | .node p k l r sz, key =>
    if splitCompare incl key k then
      let pr := splitK incl r key
      (set_right (.node p k l r sz) pr.1, pr.2)
    else
      let pl := splitK incl l key
      (pl.1, set_left (.node p k l r sz) pl.2)

/-- `TreapNode<Key>::split` (treap.h:367-380), embedded literally. -/
def splitH : TNode → Int → TNode × TNode
  | .nil, _ => (.nil, .nil)
  | .node p k l r sz, value =>
    if k < value then
      let pr := splitH r value
      (set_right (.node p k l r sz) pr.1, pr.2)
    else
      let pl := splitH l value
      (pl.1, set_left (.node p k l r sz) pl.2)

theorem splitH_eq_splitK (t : TNode) (value : Int) : splitH t value = splitK false t value := by
  induction t with
  | nil => rfl
  | node p k l r sz ihl ihr =>
    simp only [splitH, splitK, splitCompare, Bool.if_false_left]
    by_cases h : k < value <;> simp [h, ihl, ihr]

/-! ### The explicit-stack loops of `treap::merge` and `treap::split`

The first phase records the visited (node, comparison) pairs on a stack
(the Lean list's head is the stack top); the second phase pops them and
reattaches children exactly as the C++ second loop does. -/

/-- First loop of `treap::merge` (treap.hpp:313-329): while both nodes
are non-null, swap so `node1` has the not-greater key, record the
priority comparison and the winning node, and step into the winner's
inner child.  Returns the final stack and the surviving node
(`child = node1 == nullptr ? node2 : node1`). -/
def mergePhase1 : TNode → TNode → List (TNode × Bool) → List (TNode × Bool) × TNode
  | .nil, t2, st => (st, t2)
  | .node p1 k1 l1 r1 s1, .nil, st => (st, .node p1 k1 l1 r1 s1)
  | .node p1 k1 l1 r1 s1, .node p2 k2 l2 r2 s2, st =>
    if k2 < k1 then
      if p2 > p1 then
        mergePhase1 r2 (.node p1 k1 l1 r1 s1) ((.node p2 k2 l2 r2 s2, true) :: st)
      else
        mergePhase1 (.node p2 k2 l2 r2 s2) l1 ((.node p1 k1 l1 r1 s1, false) :: st)
    else
      if p1 > p2 then
        mergePhase1 r1 (.node p2 k2 l2 r2 s2) ((.node p1 k1 l1 r1 s1, true) :: st)
      else
        mergePhase1 (.node p1 k1 l1 r1 s1) l2 ((.node p2 k2 l2 r2 s2, false) :: st)
termination_by t1 t2 _ => realSize t1 + realSize t2
decreasing_by all_goals simp [realSize]; omega

/-- Second loop of `treap::merge` (treap.hpp:333-348): pop each recorded
(parent, comparison) pair and attach the merged child on the recorded
side. -/
def mergePhase2 : List (TNode × Bool) → TNode → TNode
  | [], child => child
  | (parent, true) :: rest, child => mergePhase2 rest (set_right parent child)
  | (parent, false) :: rest, child => mergePhase2 rest (set_left parent child)

/-- `treap::merge` (treap.hpp:301-350): the early null-null return, the
descent loop and the reattachment loop. -/
def mergeIter (t1 t2 : TNode) : TNode :=
  if t1 = .nil ∧ t2 = .nil then .nil
  else
    let pr := mergePhase1 t1 t2 []
    mergePhase2 pr.1 pr.2

theorem mergePhase1_spec (t1 t2 : TNode) (st : List (TNode × Bool)) :
    mergePhase2 (mergePhase1 t1 t2 st).1 (mergePhase1 t1 t2 st).2 =
      mergePhase2 st (mergeH t1 t2) := by
  induction t1, t2, st using mergePhase1.induct with
  | case1 t2 st => simp [mergePhase1, mergeH]
  | case2 p1 k1 l1 r1 s1 st => simp [mergePhase1, mergeH]
  | case3 p1 k1 l1 r1 s1 p2 k2 l2 r2 s2 st hk hp ih =>
    rw [mergePhase1, if_pos hk, if_pos hp, ih, mergeH, if_pos hk, if_pos hp, mergePhase2]
  | case4 p1 k1 l1 r1 s1 p2 k2 l2 r2 s2 st hk hp ih =>
    rw [mergePhase1, if_pos hk, if_neg hp, ih, mergeH, if_pos hk, if_neg hp, mergePhase2]
  | case5 p1 k1 l1 r1 s1 p2 k2 l2 r2 s2 st hk hp ih =>
    rw [mergePhase1, if_neg hk, if_pos hp, ih, mergeH, if_neg hk, if_pos hp, mergePhase2]
  | case6 p1 k1 l1 r1 s1 p2 k2 l2 r2 s2 st hk hp ih =>
    rw [mergePhase1, if_neg hk, if_neg hp, ih, mergeH, if_neg hk, if_neg hp, mergePhase2]

/-- The explicit-stack merge of `treap.hpp` computes the same tree as the
recursive merge of `treap.h`. -/
theorem mergeIter_eq_mergeH (t1 t2 : TNode) : mergeIter t1 t2 = mergeH t1 t2 := by
  unfold mergeIter
  by_cases h : t1 = .nil ∧ t2 = .nil
  · rcases h with ⟨h1, h2⟩; subst h1; subst h2; simp [mergeH]
  · simp only [if_neg h]
    have := mergePhase1_spec t1 t2 []
    simpa [mergePhase2] using this

/-- First loop of `treap::split` (treap.hpp:357-367): push the visited
node and its comparison result, descend to the selected child. -/
def splitPhase1 (incl : Bool) (key : Int) : TNode → List (TNode × Bool) → List (TNode × Bool)
  | .nil, st => st
  | .node p k l r sz, st =>
    if splitCompare incl key k then
      splitPhase1 incl key r ((.node p k l r sz, true) :: st)
    else
      splitPhase1 incl key l ((.node p k l r sz, false) :: st)

/-- Second loop of `treap::split` (treap.hpp:372-386): rebuild the two
result trees from the recorded stack; the pair holds (left, right). -/
def splitPhase2 : List (TNode × Bool) → TNode × TNode → TNode × TNode
  | [], pr => pr
  | (parent, true) :: rest, pr => splitPhase2 rest (set_right parent pr.1, pr.2)
  | (parent, false) :: rest, pr => splitPhase2 rest (pr.1, set_left parent pr.2)

/-- `treap::split<KeyIncluded>` (treap.hpp:352-392) as the two
explicit-stack loops. -/
def splitIter (incl : Bool) (t : TNode) (key : Int) : TNode × TNode :=
  splitPhase2 (splitPhase1 incl key t []) (.nil, .nil)

theorem splitPhase1_spec (incl : Bool) (key : Int) (t : TNode) (st : List (TNode × Bool)) :
    splitPhase2 (splitPhase1 incl key t st) (.nil, .nil) =
      splitPhase2 st (splitK incl t key) := by
  induction t generalizing st with
  | nil => simp [splitPhase1, splitK]
  | node p k l r sz ihl ihr =>
    by_cases h : splitCompare incl key k
    · rw [splitPhase1, if_pos h, ihr, splitPhase2, splitK, if_pos h]
    · rw [splitPhase1, if_neg h, ihl, splitPhase2, splitK, if_neg h]

/-- The explicit-stack split of `treap.hpp` computes the same pair as the
recursive split. -/
theorem splitIter_eq_splitK (incl : Bool) (t : TNode) (key : Int) :
    splitIter incl t key = splitK incl t key := by
  unfold splitIter
  rw [splitPhase1_spec]
  rfl

/-! ## Implicit treap: split and merge (src/trees/implicit_treap.hpp) -/

/-- `implicit_treap::merge` (implicit_treap.hpp:171-188): recursive,
priority comparison only (no keys). -/
def mergeI : TNode → TNode → TNode
  | .nil, t2 => t2
  | .node p1 v1 l1 r1 s1, .nil => .node p1 v1 l1 r1 s1
  | .node p1 v1 l1 r1 s1, .node p2 v2 l2 r2 s2 =>
    if p1 > p2 then
      set_right (.node p1 v1 l1 r1 s1) (mergeI r1 (.node p2 v2 l2 r2 s2))
    else
      set_left (.node p2 v2 l2 r2 s2) (mergeI (.node p1 v1 l1 r1 s1) l2)
termination_by t1 t2 => realSize t1 + realSize t2
decreasing_by all_goals simp [realSize]; omega

/-- `implicit_treap::split` (implicit_treap.hpp:190-209): split by count,
consulting the stored `size()`/`left_size()` fields.  The C++ guard
`index <= 0` on the unsigned `size_type` means `index == 0`. -/
def splitI : TNode → Nat → TNode × TNode
  | t, 0 => (.nil, t)
  | .nil, _ => (.nil, .nil)
  | .node p v l r sz, index =>
    if index ≥ sz then (.node p v l r sz, .nil)
    else if storedSize l < index then
      let pr := splitI r (index - storedSize l - 1)
      (set_right (.node p v l r sz) pr.1, pr.2)
    else
      let pl := splitI l index
      (pl.1, set_left (.node p v l r sz) pl.2)

/-! ## Order-statistic descent (src/trees/treap_base.hpp:497-521 and
src/trees/treap.h:481-504, identical algorithm) -/

/-- The rank-descent loop of `treap_base::node_of_order` /
`Treap::nodeOfOrder` after the two guards: `index` has already been
incremented, so it is the 1-based target rank; the trailing
`throw std::runtime_error("Unreachable code")` is the `nil` case. -/
def nodeOfOrderLoop : TNode → Nat → Except String TNode
  | .nil, _ => .error "Unreachable code"
  | .node p k l r sz, idx =>
    -- left_count := root->left_size()
    if idx = storedSize l + 1 then .ok (.node p k l r sz)
    else if idx ≤ storedSize l then nodeOfOrderLoop l idx
    else nodeOfOrderLoop r (idx - (storedSize l + 1))

/-- `treap_base::node_of_order(index)` (treap_base.hpp:497-521):
`index == size()` yields the null past-the-end sentinel, `index > size()`
throws `std::out_of_range`, otherwise the loop runs with `++index`.
`Treap::nodeOfOrder` (treap.h:481-504) is the same code with message
"Index out of bounds".  The method is `const`: it never mutates the
tree, which the embedding reflects by not returning one. -/
def node_of_order (t : TNode) (index : Nat) : Except String (Option TNode) :=
  if index = storedSize t then .ok none
  else if index > storedSize t then .error (toString index ++ " index out of bounds")
  else (nodeOfOrderLoop t (index + 1)).map some

/-! ## Helper lemmas -/

theorem elems_eq_map_snd_inorder (t : TNode) : elems t = (inorder t).map Prod.snd := rfl

theorem sorted_node_iff {p k l r sz} :
    Sorted (.node p k l r sz) ↔
      Sorted l ∧ Sorted r ∧ (∀ x ∈ elems l, x < k) ∧ (∀ y ∈ elems r, k < y) := by
  constructor
  · intro h
    rw [Sorted, elems_node, List.pairwise_append] at h
    rcases h with ⟨hl, hkr, hcross⟩
    rw [List.pairwise_cons] at hkr
    exact ⟨hl, hkr.2, fun x hx => hcross x hx k (List.mem_cons_self _ _), hkr.1⟩
  · rintro ⟨hl, hr, hlk, hkr⟩
    rw [Sorted, elems_node, List.pairwise_append, List.pairwise_cons]
    refine ⟨hl, ⟨hkr, hr⟩, ?_⟩
    intro x hx y hy
    rcases List.mem_cons.mp hy with hy | hy
    · exact hy ▸ hlk x hx
    · exact lt_trans (hlk x hx) (hkr y hy)

theorem rootPay_mem_elems {p k l r sz} : k ∈ elems (.node p k l r sz) := by simp

/-! ## Lemmas about the keyed merge -/

/-- When every key of the first tree strictly precedes every key of the
second, `merge` concatenates the in-order traversals (both `treap.h` and
`treap.hpp` merge, via `mergeIter_eq_mergeH`). -/
theorem mergeH_inorder (t1 t2 : TNode)
    (hord : ∀ x ∈ elems t1, ∀ y ∈ elems t2, x < y) :
    inorder (mergeH t1 t2) = inorder t1 ++ inorder t2 := by
  revert hord
  induction t1, t2 using mergeH.induct with
  | case1 t2 => intro hord; simp [mergeH]
  | case2 p1 k1 l1 r1 s1 => intro hord; simp [mergeH]
  | case3 p1 k1 l1 r1 s1 p2 k2 l2 r2 s2 hk hp ih =>
    intro hord
    exact absurd (hord k1 rootPay_mem_elems k2 rootPay_mem_elems) (by omega)
  | case4 p1 k1 l1 r1 s1 p2 k2 l2 r2 s2 hk hp ih =>
    intro hord
    exact absurd (hord k1 rootPay_mem_elems k2 rootPay_mem_elems) (by omega)
  | case5 p1 k1 l1 r1 s1 p2 k2 l2 r2 s2 hk hp ih =>
    intro hord
    rw [mergeH, if_neg hk, if_pos hp]
    have hsub : ∀ x ∈ elems r1, ∀ y ∈ elems (TNode.node p2 k2 l2 r2 s2), x < y := by
      intro x hx y hy
      exact hord x (by simp; tauto) y hy
    simp [ih hsub]
  | case6 p1 k1 l1 r1 s1 p2 k2 l2 r2 s2 hk hp ih =>
    intro hord
    rw [mergeH, if_neg hk, if_neg hp]
    have hsub : ∀ x ∈ elems (TNode.node p1 k1 l1 r1 s1), ∀ y ∈ elems l2, x < y := by
      intro x hx y hy
      exact hord x hx y (by simp; tauto)
    simp [ih hsub]

theorem mergeH_elems (t1 t2 : TNode)
    (hord : ∀ x ∈ elems t1, ∀ y ∈ elems t2, x < y) :
    elems (mergeH t1 t2) = elems t1 ++ elems t2 := by
  simp [elems_eq_map_snd_inorder, mergeH_inorder t1 t2 hord]

/-- `merge` preserves the heap property and never raises the root
priority above those of its two arguments. -/
theorem mergeH_heapOk (t1 t2 : TNode) (h1 : heapOk t1) (h2 : heapOk t2) :
    heapOk (mergeH t1 t2) ∧ rootPrio (mergeH t1 t2) ≤ max (rootPrio t1) (rootPrio t2) := by
  revert h1 h2
  induction t1, t2 using mergeH.induct with
  | case1 t2 => intro h1 h2; simpa [mergeH] using h2
  | case2 p1 k1 l1 r1 s1 => intro h1 h2; simpa [mergeH] using h1
  | case3 p1 k1 l1 r1 s1 p2 k2 l2 r2 s2 hk hp ih =>
    intro h1 h2
    rw [mergeH, if_pos hk, if_pos hp]
    rcases h1 with ⟨hl1, hr1, hhl1, hhr1⟩
    rcases h2 with ⟨hl2, hr2, hhl2, hhr2⟩
    rcases ih hhr2 ⟨hl1, hr1, hhl1, hhr1⟩ with ⟨ihh, ihp⟩
    refine ⟨⟨hl2, ?_, hhl2, ihh⟩, by simp⟩
    simp only [rootPrio_node] at ihp ⊢
    omega
  | case4 p1 k1 l1 r1 s1 p2 k2 l2 r2 s2 hk hp ih =>
    intro h1 h2
    rw [mergeH, if_pos hk, if_neg hp]
    rcases h1 with ⟨hl1, hr1, hhl1, hhr1⟩
    rcases h2 with ⟨hl2, hr2, hhl2, hhr2⟩
    rcases ih ⟨hl2, hr2, hhl2, hhr2⟩ hhl1 with ⟨ihh, ihp⟩
    refine ⟨⟨?_, hr1, ihh, hhr1⟩, by simp⟩
    simp only [rootPrio_node] at ihp ⊢
    omega
  | case5 p1 k1 l1 r1 s1 p2 k2 l2 r2 s2 hk hp ih =>
    intro h1 h2
    rw [mergeH, if_neg hk, if_pos hp]
    rcases h1 with ⟨hl1, hr1, hhl1, hhr1⟩
    rcases h2 with ⟨hl2, hr2, hhl2, hhr2⟩
    rcases ih hhr1 ⟨hl2, hr2, hhl2, hhr2⟩ with ⟨ihh, ihp⟩
    refine ⟨⟨hl1, ?_, hhl1, ihh⟩, by simp⟩
    simp only [rootPrio_node] at ihp ⊢
    omega
  | case6 p1 k1 l1 r1 s1 p2 k2 l2 r2 s2 hk hp ih =>
    intro h1 h2
    rw [mergeH, if_neg hk, if_neg hp]
    rcases h1 with ⟨hl1, hr1, hhl1, hhr1⟩
    rcases h2 with ⟨hl2, hr2, hhl2, hhr2⟩
    rcases ih ⟨hl1, hr1, hhl1, hhr1⟩ hhl2 with ⟨ihh, ihp⟩
    refine ⟨⟨?_, hr2, ihh, hhr2⟩, by simp⟩
    simp only [rootPrio_node] at ihp ⊢
    omega

/-- `merge` preserves Invariant C: the rebuilt nodes pass through
`set_left`/`set_right`, which recompute the stored size. -/
theorem mergeH_sizeOk (t1 t2 : TNode) (h1 : sizeOk t1) (h2 : sizeOk t2) :
    sizeOk (mergeH t1 t2) := by
  revert h1 h2
  induction t1, t2 using mergeH.induct with
  | case1 t2 => intro h1 h2; simpa [mergeH] using h2
  | case2 p1 k1 l1 r1 s1 => intro h1 h2; simpa [mergeH] using h1
  | case3 p1 k1 l1 r1 s1 p2 k2 l2 r2 s2 hk hp ih =>
    intro h1 h2
    rw [mergeH, if_pos hk, if_pos hp]
    rcases h2 with ⟨hsz2, hl2, hr2⟩
    exact ⟨rfl, hl2, ih hr2 h1⟩
  | case4 p1 k1 l1 r1 s1 p2 k2 l2 r2 s2 hk hp ih =>
    intro h1 h2
    rw [mergeH, if_pos hk, if_neg hp]
    rcases h1 with ⟨hsz1, hl1, hr1⟩
    exact ⟨rfl, ih h2 hl1, hr1⟩
  | case5 p1 k1 l1 r1 s1 p2 k2 l2 r2 s2 hk hp ih =>
    intro h1 h2
    rw [mergeH, if_neg hk, if_pos hp]
    rcases h1 with ⟨hsz1, hl1, hr1⟩
    exact ⟨rfl, hl1, ih hr1 h2⟩
  | case6 p1 k1 l1 r1 s1 p2 k2 l2 r2 s2 hk hp ih =>
    intro h1 h2
    rw [mergeH, if_neg hk, if_neg hp]
    rcases h2 with ⟨hsz2, hl2, hr2⟩
    exact ⟨rfl, ih h1 hl2, hr2⟩

/-! ## Lemmas about the keyed split -/

/-- `split` partitions the in-order traversal: the traversals of the two
parts concatenate to the original traversal (no node lost, duplicated or
reordered). -/
theorem splitK_inorder (incl : Bool) (t : TNode) (key : Int) :
    inorder (splitK incl t key).1 ++ inorder (splitK incl t key).2 = inorder t := by
  induction t with
  | nil => simp [splitK]
  | node p k l r sz ihl ihr =>
    by_cases h : splitCompare incl key k
    · rw [splitK, if_pos h]
      simp only [set_right_node, inorder_node, List.append_assoc, List.cons_append]
      rw [ihr]
    · rw [splitK, if_neg h]
      simp only [set_left_node, inorder_node]
      rw [← List.append_assoc, ihl]

theorem splitK_elems (incl : Bool) (t : TNode) (key : Int) :
    elems (splitK incl t key).1 ++ elems (splitK incl t key).2 = elems t := by
  have h := congrArg (List.map Prod.snd) (splitK_inorder incl t key)
  simpa [elems_eq_map_snd_inorder] using h

theorem splitK_sizeOk (incl : Bool) (t : TNode) (key : Int) (h : sizeOk t) :
    sizeOk (splitK incl t key).1 ∧ sizeOk (splitK incl t key).2 := by
  induction t with
  | nil => simp [splitK]
  | node p k l r sz ihl ihr =>
    rcases h with ⟨hsz, hl, hr⟩
    by_cases h : splitCompare incl key k
    · rw [splitK, if_pos h]
      exact ⟨⟨rfl, hl, (ihr hr).1⟩, (ihr hr).2⟩
    · rw [splitK, if_neg h]
      exact ⟨(ihl hl).1, ⟨rfl, (ihl hl).2, hr⟩⟩

/-- On a sorted tree, `split<KeyIncluded>` separates the keys at the
pivot: with `KeyIncluded = false` the left part is `< key` and the right
part `≥ key`; with `KeyIncluded = true` the left part is `≤ key` and the
right part `> key` (treap.hpp doc comment, lines 74-79). -/
theorem splitK_bounds (incl : Bool) (t : TNode) (key : Int) (hs : Sorted t) :
    (∀ x ∈ elems (splitK incl t key).1, if incl then x ≤ key else x < key) ∧
      (∀ y ∈ elems (splitK incl t key).2, if incl then key < y else key ≤ y) := by
  induction t with
  | nil => simp [splitK]
  | node p k l r sz ihl ihr =>
    rcases sorted_node_iff.mp hs with ⟨hsl, hsr, hlk, hkr⟩
    by_cases h : splitCompare incl key k
    · have hck : if incl then k ≤ key else k < key := by
        rcases incl with _ | _ <;> simpa [splitCompare] using h
      rw [splitK, if_pos h]
      rcases ihr hsr with ⟨ih1, ih2⟩
      constructor
      · intro x hx
        simp only [set_right_node, elems_node, List.mem_append, List.mem_cons] at hx
        rcases hx with hx | hx | hx
        · have hxk := hlk x hx
          rcases incl with _ | _ <;> simp at hck ⊢ <;> omega
        · subst hx; exact hck
        · exact ih1 x hx
      · exact ih2
    · have hck : if incl then key < k else key ≤ k := by
        rcases incl with _ | _ <;> simpa [splitCompare] using h
      rw [splitK, if_neg h]
      rcases ihl hsl with ⟨ih1, ih2⟩
      constructor
      · exact ih1
      · intro y hy
        simp only [set_left_node, elems_node, List.mem_append, List.mem_cons] at hy
        rcases hy with hy | hy | hy
        · exact ih2 y hy
        · subst hy; exact hck
        · have hky := hkr y hy
          rcases incl with _ | _ <;> simp at hck ⊢ <;> omega

/-- Both parts of a split of a sorted tree are sorted. -/
theorem splitK_sorted (incl : Bool) (t : TNode) (key : Int) (hs : Sorted t) :
    Sorted (splitK incl t key).1 ∧ Sorted (splitK incl t key).2 := by
  have hcat := splitK_elems incl t key
  rw [Sorted, ← hcat] at hs
  rw [List.pairwise_append] at hs
  exact ⟨hs.1, hs.2.1⟩

/-- Keys of either part of a split belong to the original tree. -/
theorem splitK_mem (incl : Bool) (t : TNode) (key : Int) :
    (∀ x ∈ elems (splitK incl t key).1, x ∈ elems t) ∧
      (∀ y ∈ elems (splitK incl t key).2, y ∈ elems t) := by
  have hcat := splitK_elems incl t key
  constructor
  · intro x hx; rw [← hcat]; exact List.mem_append_left _ hx
  · intro y hy; rw [← hcat]; exact List.mem_append_right _ hy

/-! ## Lemmas about the implicit merge and split -/

/-- The implicit merge always concatenates the in-order traversals: the
positional precedence of the first argument over the second is inherent
in the operation. -/
theorem mergeI_inorder (t1 t2 : TNode) :
    inorder (mergeI t1 t2) = inorder t1 ++ inorder t2 := by
  induction t1, t2 using mergeI.induct with
  | case1 t2 => simp [mergeI]
  | case2 p1 v1 l1 r1 s1 => simp [mergeI]
  | case3 p1 v1 l1 r1 s1 p2 v2 l2 r2 s2 hp ih =>
    rw [mergeI, if_pos hp]
    simp [ih, List.append_assoc]
  | case4 p1 v1 l1 r1 s1 p2 v2 l2 r2 s2 hp ih =>
    rw [mergeI, if_neg hp]
    simp [ih, List.append_assoc]

theorem mergeI_elems (t1 t2 : TNode) : elems (mergeI t1 t2) = elems t1 ++ elems t2 := by
  simp [elems_eq_map_snd_inorder, mergeI_inorder]

theorem mergeI_heapOk (t1 t2 : TNode) (h1 : heapOk t1) (h2 : heapOk t2) :
    heapOk (mergeI t1 t2) ∧ rootPrio (mergeI t1 t2) ≤ max (rootPrio t1) (rootPrio t2) := by
  revert h1 h2
  induction t1, t2 using mergeI.induct with
  | case1 t2 => intro h1 h2; simpa [mergeI] using h2
  | case2 p1 v1 l1 r1 s1 => intro h1 h2; simpa [mergeI] using h1
  | case3 p1 v1 l1 r1 s1 p2 v2 l2 r2 s2 hp ih =>
    intro h1 h2
    rw [mergeI, if_pos hp]
    rcases h1 with ⟨hl1, hr1, hhl1, hhr1⟩
    rcases ih hhr1 h2 with ⟨ihh, ihp⟩
    refine ⟨⟨hl1, ?_, hhl1, ihh⟩, by simp⟩
    simp only [rootPrio_node] at ihp ⊢
    omega
  | case4 p1 v1 l1 r1 s1 p2 v2 l2 r2 s2 hp ih =>
    intro h1 h2
    rw [mergeI, if_neg hp]
    rcases h2 with ⟨hl2, hr2, hhl2, hhr2⟩
    rcases ih h1 hhl2 with ⟨ihh, ihp⟩
    refine ⟨⟨?_, hr2, ihh, hhr2⟩, by simp⟩
    simp only [rootPrio_node] at ihp ⊢
    omega

theorem mergeI_sizeOk (t1 t2 : TNode) (h1 : sizeOk t1) (h2 : sizeOk t2) :
    sizeOk (mergeI t1 t2) := by
  revert h1 h2
  induction t1, t2 using mergeI.induct with
  | case1 t2 => intro h1 h2; simpa [mergeI] using h2
  | case2 p1 v1 l1 r1 s1 => intro h1 h2; simpa [mergeI] using h1
  | case3 p1 v1 l1 r1 s1 p2 v2 l2 r2 s2 hp ih =>
    intro h1 h2
    rw [mergeI, if_pos hp]
    rcases h1 with ⟨hsz1, hl1, hr1⟩
    exact ⟨rfl, hl1, ih hr1 h2⟩
  | case4 p1 v1 l1 r1 s1 p2 v2 l2 r2 s2 hp ih =>
    intro h1 h2
    rw [mergeI, if_neg hp]
    rcases h2 with ⟨hsz2, hl2, hr2⟩
    exact ⟨rfl, ih h1 hl2, hr2⟩

/-- On a size-correct tree, the positional split returns the first
`index` elements and the rest, in order. -/
theorem splitI_inorder (t : TNode) (index : Nat) (h : sizeOk t) :
    inorder (splitI t index).1 = (inorder t).take index ∧
      inorder (splitI t index).2 = (inorder t).drop index := by
  induction t generalizing index with
  | nil => cases index <;> simp [splitI]
  | node p v l r sz ihl ihr =>
    rcases h with ⟨hsz, hl, hr⟩
    have hlen_l : (inorder l).length = storedSize l := by
      rw [length_inorder, ← storedSize_eq_realSize hl]
    have hlen_r : (inorder r).length = storedSize r := by
      rw [length_inorder, ← storedSize_eq_realSize hr]
    rcases index with _ | n
    · simp [splitI]
    · simp only [splitI]
      by_cases hge : n + 1 ≥ sz
      · rw [if_pos hge]
        have hlen : (inorder (TNode.node p v l r sz)).length = sz := by
          simp [hlen_l, hlen_r]; omega
        constructor
        · rw [List.take_of_length_le (by omega)]
        · rw [List.drop_of_length_le (by omega)]; rfl
      · rw [if_neg hge]
        by_cases hlt : storedSize l < n + 1
        · rw [if_pos hlt]
          rcases ihr (n + 1 - storedSize l - 1) hr with ⟨ih1, ih2⟩
          have hle1 : (inorder l).length ≤ n + 1 := by omega
          have harith : n + 1 - (inorder l).length = (n + 1 - storedSize l - 1) + 1 := by
            rw [hlen_l]; omega
          have htake : List.take (n + 1) (inorder l ++ (p, v) :: inorder r) =
              inorder l ++ (p, v) :: List.take (n + 1 - storedSize l - 1) (inorder r) := by
            rw [List.take_append_eq_append_take, List.take_of_length_le hle1, harith,
              List.take_succ_cons]
          have hdrop : List.drop (n + 1) (inorder l ++ (p, v) :: inorder r) =
              List.drop (n + 1 - storedSize l - 1) (inorder r) := by
            rw [List.drop_append_eq_append_drop, List.drop_eq_nil_of_le hle1,
              List.nil_append, harith, List.drop_succ_cons]
          constructor
          · simp only [set_right_node, inorder_node]
            rw [ih1, htake]
          · simp only [inorder_node]
            rw [ih2, hdrop]
        · rw [if_neg hlt]
          rcases ihl (n + 1) hl with ⟨ih1, ih2⟩
          constructor
          · simp only [inorder_node]
            rw [ih1, List.take_append_of_le_length (by omega)]
          · simp only [set_left_node, inorder_node]
            rw [ih2, List.drop_append_of_le_length (by omega)]

theorem splitI_sizeOk (t : TNode) (index : Nat) (h : sizeOk t) :
    sizeOk (splitI t index).1 ∧ sizeOk (splitI t index).2 := by
  induction t generalizing index with
  | nil => cases index <;> simp [splitI]
  | node p v l r sz ihl ihr =>
    rcases h with ⟨hsz, hl, hr⟩
    rcases index with _ | n
    · exact ⟨trivial, ⟨hsz, hl, hr⟩⟩
    · simp only [splitI]
      by_cases hge : n + 1 ≥ sz
      · rw [if_pos hge]
        exact ⟨⟨hsz, hl, hr⟩, trivial⟩
      · rw [if_neg hge]
        by_cases hlt : storedSize l < n + 1
        · rw [if_pos hlt]
          rcases ihr (n + 1 - storedSize l - 1) hr with ⟨ih1, ih2⟩
          exact ⟨⟨rfl, hl, ih1⟩, ih2⟩
        · rw [if_neg hlt]
          rcases ihl (n + 1) hl with ⟨ih1, ih2⟩
          exact ⟨ih1, ⟨rfl, ih2, hr⟩⟩

/-! ## Lemmas about the order-statistic descent -/

/-- Under Invariant C, the rank-descent loop started at 1-based rank
`idx` returns the node whose 0-based in-order position is `idx - 1`;
it never reaches the trailing `throw std::runtime_error`. -/
theorem nodeOfOrderLoop_spec (t : TNode) (idx : Nat) (hs : sizeOk t)
    (h1 : 1 ≤ idx) (h2 : idx ≤ realSize t) :
    ∃ n, (inorderNodes t)[idx - 1]? = some n ∧ nodeOfOrderLoop t idx = .ok n := by
  induction t generalizing idx with
  | nil => simp at h2; omega
  | node p k l r sz ihl ihr =>
    rcases hs with ⟨hsz, hl, hr⟩
    have hlcount : storedSize l = (inorderNodes l).length := by
      rw [length_inorderNodes, storedSize_eq_realSize hl]
    by_cases heq : idx = storedSize l + 1
    · refine ⟨.node p k l r sz, ?_, ?_⟩
      · rw [inorderNodes_node, List.getElem?_append_right (by omega)]
        have h0 : idx - 1 - (inorderNodes l).length = 0 := by omega
        rw [h0]
        simp
      · rw [nodeOfOrderLoop, if_pos heq]
    · by_cases hle : idx ≤ storedSize l
      · have hreal : idx ≤ realSize l := by
          rw [← storedSize_eq_realSize hl]; omega
        rcases ihl idx hl h1 hreal with ⟨n, hget, hloop⟩
        refine ⟨n, ?_, ?_⟩
        · rw [inorderNodes_node, List.getElem?_append_left (by omega)]
          exact hget
        · rw [nodeOfOrderLoop, if_neg heq, if_pos hle]
          exact hloop
      · have hgt : storedSize l + 1 < idx := by omega
        have hreal : idx - (storedSize l + 1) ≤ realSize r := by
          have := storedSize_eq_realSize hl
          simp at h2
          omega
        rcases ihr (idx - (storedSize l + 1)) hr (by omega) hreal with ⟨n, hget, hloop⟩
        refine ⟨n, ?_, ?_⟩
        · rw [inorderNodes_node, List.getElem?_append_right (by omega)]
          have hstep : idx - 1 - (inorderNodes l).length = (idx - (storedSize l + 1) - 1) + 1 := by
            omega
          rw [hstep, List.getElem?_cons_succ]
          exact hget
        · rw [nodeOfOrderLoop, if_neg heq, if_neg hle]
          exact hloop

/-! ## Key-ordered treap container operations (src/trees/treap.hpp)

The `nstd::treap` operations, with the comparator instantiated at `<` on
`Int` and the priority drawn by `treap_base::construct_node` from the
process-wide `std::mt19937_64` modeled as an explicit argument.  The
operations call the iterative `splitIter`/`mergeIter` exactly as the C++
calls `split`/`merge`. -/

/-- `treap::lower_bound_node` (treap.hpp:596-610): comparator descent
keeping the best (leftmost not-less) candidate in `result`; `none` is
the `end_node()` sentinel. -/
def lower_bound_node : TNode → Int → Option TNode → Option TNode
  | .nil, _, result => result
  | .node p k l r sz, key, result =>
    if k < key then lower_bound_node r key result
    else lower_bound_node l key (some (.node p k l r sz))

/-- `treap::find` (treap.hpp:522-530): lower bound, then check the found
key is not greater than the searched key. -/
def find (t : TNode) (key : Int) : Option TNode :=
  match lower_bound_node t key none with
  | some n => if ¬(key < rootPay n) then some n else none
  | none => none

/-- `treap_base::construct_node` (treap_base.hpp:478-490): a fresh node
with the drawn priority, null children and size 1 (the
`treap_node_base` constructor runs `update()` on null children). -/
def construct_node (key : Int) (prio : Nat) : TNode := .node prio key .nil .nil 1

/-- `treap::insert_node` (treap.hpp:394-403): split at the new node's
key, merge the three parts (the cached begin-pointer update is iterator
bookkeeping, not tree state). -/
def insert_node (t : TNode) (nd : TNode) : TNode :=
  let pr := splitIter false t (rootPay nd)
  mergeIter (mergeIter pr.1 nd) pr.2

/-- `treap::emplace_with_key` (treap.hpp:475-491): if `find` locates the
key, return the existing iterator with `false` and leave the tree
untouched; otherwise construct a node and insert it.  Returns the new
tree together with (iterator target, inserted flag). -/
def emplace_with_key (t : TNode) (key : Int) (prio : Nat) : TNode × (Option TNode × Bool) :=
  match find t key with
  | some n => (t, (some n, false))
  | none =>
    let nd := construct_node key prio
    (insert_node t nd, (some nd, true))

/-- `treap::detach_node_key_interval<EndIncluded>` (treap.hpp:405-417):
split off everything below `begin_key`, split the remainder at
`end_key`, re-merge the outer parts.  Returns (new root, detached
interval). -/
def detach_node_key_interval (endIncl : Bool) (t : TNode) (bk ek : Int) : TNode × TNode :=
  let pr1 := splitIter false t bk
  let pr2 := splitIter endIncl pr1.2 ek
  (mergeIter pr1.1 pr2.2, pr2.1)

/-- `treap::detach_node_with_key` (treap.hpp:419-423):
`detach_node_key_interval<true>(key, key)`. -/
def detach_node_with_key (t : TNode) (key : Int) : TNode × TNode :=
  detach_node_key_interval true t key key

/-- `treap::erase_key` (treap.hpp:509-515): detach the node with the key
(if any) and destroy it; the remaining tree is the new root. -/
def erase_key (t : TNode) (key : Int) : TNode :=
  (detach_node_with_key t key).1

/-- `treap::erase_key_interval` (treap.hpp:493-499), half-open
`[begin_key, end_key)`. -/
def erase_key_interval (t : TNode) (bk ek : Int) : TNode :=
  (detach_node_key_interval false t bk ek).1

/-- `treap::erase_key_interval_with_end` (treap.hpp:501-507), closed
`[begin_key, end_key]`. -/
def erase_key_interval_with_end (t : TNode) (bk ek : Int) : TNode :=
  (detach_node_key_interval true t bk ek).1

/-! ## Legacy container operations (src/trees/treap.h) -/

/-- `Treap::nodeOfKey` (treap.h:463-474): plain `<`/`==` descent. -/
def nodeOfKey : TNode → Int → Option TNode
  | .nil, _ => none
  | .node p k l r sz, value =>
    if value = k then some (.node p k l r sz)
    else if value < k then nodeOfKey l value
    else nodeOfKey r value

/-- `Treap::contains` (treap.h:453-456). -/
def contains (t : TNode) (value : Int) : Bool := (nodeOfKey t value).isSome

/-- `Treap::insert` (treap.h:422-435): no-op when the key is already
present; otherwise split and merge, with the root-null shortcut.  Note
the merge call order `merge(p.second, merge(p.first, my_node))`: it is
correct because `TreapNode::merge` swaps its arguments into key order. -/
def insert (t : TNode) (value : Int) (prio : Nat) : TNode :=
  if contains t value then t
  else
    let my_node : TNode := .node prio value .nil .nil 1
    if t = .nil then my_node
    else
      let p := splitH t value
      mergeH p.2 (mergeH p.1 my_node)

/-- `Treap::remove` (treap.h:437-451): split at `value` and at
`value + 1`; if the middle part is empty the key was absent and
`std::runtime_error("Element not found")` is thrown; otherwise the
detached node is deleted and the outer parts merged.  (The
`if (empty())` branch reads a stale root pointer of positive size and is
dead when the throw did not fire.) -/
def remove (t : TNode) (value : Int) : Except String TNode :=
  let first_split_pair := splitH t value
  let second_split_pair := splitH first_split_pair.2 (value + 1)
  if second_split_pair.1 = .nil then .error "Element not found"
  else .ok (mergeH first_split_pair.1 second_split_pair.2)

/-- `Treap::nodeOfOrder` (treap.h:481-504): identical to
`treap_base::node_of_order` except for the out-of-range message. -/
def nodeOfOrderT (t : TNode) (index : Nat) : Except String (Option TNode) :=
  if index = storedSize t then .ok none
  else if index > storedSize t then .error "Index out of bounds"
  else (nodeOfOrderLoop t (index + 1)).map some

/-- `Treap::keyOfOrder` (treap.h:506-509):
`return nodeOfOrder(index)->key`.  Dereferencing the null past-the-end
sentinel (`index == size`) is undefined behaviour in the C++ and is
modeled as a distinguished error. -/
def keyOfOrder (t : TNode) (index : Nat) : Except String Int :=
  match nodeOfOrderT t index with
  | .ok (some n) => .ok (rootPay n)
  | .ok none => .error "null dereference"
  | .error e => .error e

/-- The recursive helper `Treap::orderOfKey(key, node)`
(treap.h:516-528): 1-based rank of the key under `node`, throwing
`std::runtime_error("Element not found")` at a null node. -/
def orderOfKeyAux : TNode → Int → Except String Nat
  | .nil, _ => .error "Element not found"
  | .node p k l r sz, key =>
    if key = k then .ok (1 + storedSize l)
    else if key < k then orderOfKeyAux l key
    else (orderOfKeyAux r key).map (fun m => 1 + storedSize l + m)

/-- `Treap::orderOfKey(key)` (treap.h:511-514): the helper minus 1. -/
def orderOfKey (t : TNode) (key : Int) : Except String Nat :=
  (orderOfKeyAux t key).map (fun m => m - 1)

/-- `TreapNode::copy` (treap.h:335-345): fresh node with the same key
and priority, then `setLeft`/`setRight` of the recursively copied
children (skipped for null children, which leaves the fresh null). -/
def copy : TNode → TNode
  | .nil => .nil
  | .node p k l r _ =>
    let root : TNode := .node p k .nil .nil 1
    let root1 := if l = .nil then root else set_left root (copy l)
    if r = .nil then root1 else set_right root1 (copy r)

/-! ## Implicit treap container operations (src/trees/implicit_treap.hpp) -/

/-- `implicit_treap::insert_node` (implicit_treap.hpp:211-217). -/
def insert_nodeI (t : TNode) (nd : TNode) (index : Nat) : TNode :=
  let pr := splitI t index
  mergeI (mergeI pr.1 nd) pr.2

/-- `implicit_treap::emplace` (implicit_treap.hpp:300-314): clamp the
index to `size()`, construct the node, insert it at the clamped
position. -/
def emplaceI (t : TNode) (index : Nat) (value : Int) (prio : Nat) : TNode :=
  let index' := if index > storedSize t then storedSize t else index
  insert_nodeI t (construct_node value prio) index'

/-- `implicit_treap::insert(value, index)` (implicit_treap.hpp:227-237). -/
def insertI (t : TNode) (value : Int) (index : Nat) (prio : Nat) : TNode :=
  emplaceI t index value prio

/-- `implicit_treap::push_back`/`emplace_back` (implicit_treap.hpp:239-253). -/
def push_backI (t : TNode) (value : Int) (prio : Nat) : TNode :=
  emplaceI t (storedSize t) value prio

/-- `implicit_treap::push_front`/`emplace_front` (implicit_treap.hpp:255-269). -/
def push_frontI (t : TNode) (value : Int) (prio : Nat) : TNode :=
  emplaceI t 0 value prio

/-- `implicit_treap::detach_node_with_index` (implicit_treap.hpp:219-225). -/
def detach_node_with_indexI (t : TNode) (index : Nat) : TNode × TNode :=
  let pr1 := splitI t index
  let pr2 := splitI pr1.2 1
  (mergeI pr1.1 pr2.2, pr2.1)

/-- `implicit_treap::erase` (implicit_treap.hpp:271-277): early return
when `index >= size()`, otherwise detach and destroy the node. -/
def eraseI (t : TNode) (index : Nat) : TNode :=
  if index ≥ storedSize t then t
  else (detach_node_with_indexI t index).1

/-- `implicit_treap::pop_back` (implicit_treap.hpp:279-282):
`erase(size() - 1)`; on an empty container the unsigned wrap-around of
`size() - 1` (truncated to 0 in the `Nat` embedding) lands in the
`index >= size()` no-op branch either way. -/
def pop_backI (t : TNode) : TNode := eraseI t (storedSize t - 1)

/-- `implicit_treap::pop_front` (implicit_treap.hpp:284-287). -/
def pop_frontI (t : TNode) : TNode := eraseI t 0

/-! ## Search correctness for the nstd treap -/

theorem elems_eq_nil_iff {t : TNode} : elems t = [] ↔ t = .nil := by
  cases t <;> simp

theorem lower_bound_node_allLess (t : TNode) (key : Int) (acc : Option TNode)
    (h : ∀ x ∈ elems t, x < key) : lower_bound_node t key acc = acc := by
  induction t generalizing acc with
  | nil => rfl
  | node p k l r sz ihl ihr =>
    have hk : k < key := h k rootPay_mem_elems
    rw [lower_bound_node, if_pos hk]
    exact ihr acc (fun x hx => h x (by simp; tauto))

theorem lower_bound_node_present (t : TNode) (key : Int) (hs : Sorted t)
    (hmem : key ∈ elems t) (acc : Option TNode) :
    ∃ n, lower_bound_node t key acc = some n ∧ rootPay n = key := by
  induction t generalizing acc with
  | nil => simp at hmem
  | node p k l r sz ihl ihr =>
    rcases sorted_node_iff.mp hs with ⟨hsl, hsr, hlk, hkr⟩
    by_cases hklt : k < key
    · rw [lower_bound_node, if_pos hklt]
      have hmr : key ∈ elems r := by
        simp only [elems_node, List.mem_append, List.mem_cons] at hmem
        rcases hmem with hm | hm | hm
        · exact absurd (hlk key hm) (by omega)
        · omega
        · exact hm
      exact ihr hsr hmr acc
    · rw [lower_bound_node, if_neg hklt]
      by_cases hkey : key = k
      · subst hkey
        rw [lower_bound_node_allLess l key _ hlk]
        exact ⟨_, rfl, rfl⟩
      · have hml : key ∈ elems l := by
          simp only [elems_node, List.mem_append, List.mem_cons] at hmem
          rcases hmem with hm | hm | hm
          · exact hm
          · exact absurd hm hkey
          · exact absurd (hkr key hm) (by omega)
        exact ihl hsl hml _

theorem lower_bound_node_absent (t : TNode) (key : Int) (hs : Sorted t)
    (habs : key ∉ elems t) (acc : Option TNode)
    (hacc : acc = none ∨ ∃ m, acc = some m ∧ key < rootPay m) :
    lower_bound_node t key acc = none ∨
      ∃ m, lower_bound_node t key acc = some m ∧ key < rootPay m := by
  induction t generalizing acc with
  | nil => exact hacc
  | node p k l r sz ihl ihr =>
    rcases sorted_node_iff.mp hs with ⟨hsl, hsr, hlk, hkr⟩
    have hne : key ≠ k := fun h => habs (h ▸ rootPay_mem_elems)
    by_cases hklt : k < key
    · rw [lower_bound_node, if_pos hklt]
      exact ihr hsr (fun hm => habs (by simp; tauto)) acc hacc
    · rw [lower_bound_node, if_neg hklt]
      refine ihl hsl (fun hm => habs (by simp; tauto)) _ (Or.inr ⟨_, rfl, ?_⟩)
      simp only [rootPay_node]
      omega

/-- `find` correctness (present key): returns the node carrying the
key. -/
theorem find_present (t : TNode) (key : Int) (hs : Sorted t) (hmem : key ∈ elems t) :
    ∃ n, find t key = some n ∧ rootPay n = key := by
  rcases lower_bound_node_present t key hs hmem none with ⟨n, hlb, hpay⟩
  refine ⟨n, ?_, hpay⟩
  rw [find, hlb]
  simp [hpay]

/-- `find` correctness (absent key): returns the end sentinel. -/
theorem find_absent (t : TNode) (key : Int) (hs : Sorted t) (habs : key ∉ elems t) :
    find t key = none := by
  rcases lower_bound_node_absent t key hs habs none (Or.inl rfl) with hlb | ⟨m, hlb, hlt⟩
  · rw [find, hlb]
  · rw [find, hlb]
    simp [hlt]

theorem find_isSome_iff_mem (t : TNode) (key : Int) (hs : Sorted t) :
    (find t key).isSome ↔ key ∈ elems t := by
  constructor
  · intro h
    by_contra habs
    rw [find_absent t key hs habs] at h
    simp at h
  · intro hmem
    rcases find_present t key hs hmem with ⟨n, hf, _⟩
    simp [hf]

/-! ## Insert and erase lemmas for the nstd treap -/

@[simp] theorem rootPay_construct (key : Int) (prio : Nat) :
    rootPay (construct_node key prio) = key := rfl

theorem insert_node_eq (t nd : TNode) :
    insert_node t nd =
      mergeH (mergeH (splitK false t (rootPay nd)).1 nd) (splitK false t (rootPay nd)).2 := by
  simp [insert_node, splitIter_eq_splitK, mergeIter_eq_mergeH]

theorem detach_node_key_interval_eq (endIncl : Bool) (t : TNode) (bk ek : Int) :
    detach_node_key_interval endIncl t bk ek =
      (mergeH (splitK false t bk).1 (splitK endIncl (splitK false t bk).2 ek).2,
        (splitK endIncl (splitK false t bk).2 ek).1) := by
  simp [detach_node_key_interval, splitIter_eq_splitK, mergeIter_eq_mergeH]

/-- Inserting an absent key places it at its sorted position: the new
element sequence is left split part, key, right split part. -/
theorem emplace_with_key_absent (t : TNode) (key : Int) (prio : Nat)
    (hs : Sorted t) (habs : key ∉ elems t) :
    elems (emplace_with_key t key prio).1 =
        elems (splitK false t key).1 ++ key :: elems (splitK false t key).2 ∧
      Sorted (emplace_with_key t key prio).1 ∧
      (emplace_with_key t key prio).2.2 = true := by
  have hfind := find_absent t key hs habs
  have hbounds := splitK_bounds false t key hs
  have hsorted := splitK_sorted false t key hs
  have hmem := splitK_mem false t key
  have hlt1 : ∀ x ∈ elems (splitK false t key).1, ∀ y ∈ elems (construct_node key prio), x < y := by
    intro x hx y hy
    simp only [construct_node, elems_node, elems_nil, List.nil_append, List.mem_singleton] at hy
    subst hy
    simpa using hbounds.1 x hx
  have hract : ∀ y ∈ elems (splitK false t key).2, key < y := by
    intro y hy
    have h1 := hbounds.2 y hy
    simp only [if_neg Bool.false_ne_true] at h1
    have h2 : y ≠ key := fun h => habs (h ▸ hmem.2 y hy)
    omega
  have hcat1 : elems (mergeH (splitK false t key).1 (construct_node key prio)) =
      elems (splitK false t key).1 ++ [key] := by
    rw [mergeH_elems _ _ hlt1]
    simp [construct_node]
  have hlt2 : ∀ x ∈ elems (mergeH (splitK false t key).1 (construct_node key prio)),
      ∀ y ∈ elems (splitK false t key).2, x < y := by
    intro x hx y hy
    rw [hcat1] at hx
    rcases List.mem_append.mp hx with hx | hx
    · have h1 := hbounds.1 x hx
      simp only [if_neg Bool.false_ne_true] at h1
      have h2 := hract y hy
      omega
    · rw [List.mem_singleton.mp hx]
      exact hract y hy
  constructor
  · rw [emplace_with_key, hfind]
    simp only [insert_node_eq, rootPay_construct]
    rw [mergeH_elems _ _ hlt2, hcat1]
    simp
  constructor
  · rw [emplace_with_key, hfind]
    simp only [insert_node_eq, rootPay_construct]
    rw [Sorted, mergeH_elems _ _ hlt2, hcat1]
    rw [List.pairwise_append]
    refine ⟨?_, hsorted.2, ?_⟩
    · rw [List.pairwise_append]
      refine ⟨hsorted.1, List.pairwise_singleton _ _, ?_⟩
      intro x hx y hy
      rw [List.mem_singleton.mp hy]
      simpa using hbounds.1 x hx
    · intro x hx y hy
      exact hlt2 x (hcat1 ▸ hx) y hy
  · rw [emplace_with_key, hfind]

/-- Inserting a present key is a pure no-op returning the found node
and `false`. -/
theorem emplace_with_key_present (t : TNode) (key : Int) (prio : Nat)
    (n : TNode) (hfind : find t key = some n) :
    emplace_with_key t key prio = (t, (some n, false)) := by
  rw [emplace_with_key, hfind]

/-- `emplace_with_key` preserves sortedness in every case. -/
theorem emplace_with_key_sorted (t : TNode) (key : Int) (prio : Nat) (hs : Sorted t) :
    Sorted (emplace_with_key t key prio).1 := by
  by_cases hmem : key ∈ elems t
  · rcases find_present t key hs hmem with ⟨n, hf, _⟩
    rw [emplace_with_key_present t key prio n hf]
    exact hs
  · exact (emplace_with_key_absent t key prio hs hmem).2.1

/-- `emplace_with_key` preserves Invariant C. -/
theorem emplace_with_key_sizeOk (t : TNode) (key : Int) (prio : Nat) (h : sizeOk t) :
    sizeOk (emplace_with_key t key prio).1 := by
  rw [emplace_with_key]
  cases hf : find t key with
  | some n => exact h
  | none =>
    simp only [insert_node_eq]
    have hsp := splitK_sizeOk false t (rootPay (construct_node key prio)) h
    have hnd : sizeOk (construct_node key prio) := by simp [construct_node, sizeOk]
    exact mergeH_sizeOk _ _ (mergeH_sizeOk _ _ hsp.1 hnd) hsp.2

/-- The detached-interval erase: the remaining sequence is the part
below `begin_key` followed by the part above the interval, and is
sorted. -/
theorem detach_facts (endIncl : Bool) (t : TNode) (bk ek : Int) (hs : Sorted t) :
    elems (detach_node_key_interval endIncl t bk ek).1 =
        elems (splitK false t bk).1 ++ elems (splitK endIncl (splitK false t bk).2 ek).2 ∧
      Sorted (detach_node_key_interval endIncl t bk ek).1 := by
  rw [detach_node_key_interval_eq]
  have hb1 := splitK_bounds false t bk hs
  have hs1 := splitK_sorted false t bk hs
  have hm2 := splitK_mem endIncl (splitK false t bk).2 ek
  have hprec : ∀ x ∈ elems (splitK false t bk).1,
      ∀ y ∈ elems (splitK endIncl (splitK false t bk).2 ek).2, x < y := by
    intro x hx y hy
    have h1 := hb1.1 x hx
    have h2 := hb1.2 y (hm2.2 y hy)
    simp only [if_neg Bool.false_ne_true] at h1 h2
    omega
  have hcat := mergeH_elems _ _ hprec
  refine ⟨hcat, ?_⟩
  rw [Sorted, hcat]
  have hsub : (elems (splitK false t bk).1 ++
        elems (splitK endIncl (splitK false t bk).2 ek).2).Sublist (elems t) := by
    have h1 := splitK_elems false t bk
    have h2 := splitK_elems endIncl (splitK false t bk).2 ek
    rw [← h1, ← h2]
    exact (List.sublist_append_right _ _).append_left _
  exact hs.sublist hsub

theorem erase_key_sorted (t : TNode) (key : Int) (hs : Sorted t) :
    Sorted (erase_key t key) :=
  (detach_facts true t key key hs).2

theorem erase_key_interval_sorted (t : TNode) (bk ek : Int) (hs : Sorted t) :
    Sorted (erase_key_interval t bk ek) :=
  (detach_facts false t bk ek hs).2

theorem erase_key_interval_with_end_sorted (t : TNode) (bk ek : Int) (hs : Sorted t) :
    Sorted (erase_key_interval_with_end t bk ek) :=
  (detach_facts true t bk ek hs).2

/-- Erasing an absent key leaves the key sequence unchanged. -/
theorem erase_key_absent_elems (t : TNode) (key : Int) (hs : Sorted t)
    (habs : key ∉ elems t) : elems (erase_key t key) = elems t := by
  have hfacts := detach_facts true t key key hs
  rw [erase_key, detach_node_with_key, hfacts.1]
  have hint : elems (splitK true (splitK false t key).2 key).1 = [] := by
    by_contra hne
    rcases List.exists_mem_of_ne_nil _ hne with ⟨x, hx⟩
    have hb1 := splitK_bounds false t key hs
    have hs1 := splitK_sorted false t key hs
    have hb2 := splitK_bounds true (splitK false t key).2 key hs1.2
    have hm1 := splitK_mem false t key
    have hm2 := splitK_mem true (splitK false t key).2 key
    have h1 := hb2.1 x hx
    have h2 := hb1.2 x (hm2.1 x hx)
    simp at h1 h2
    have hxk : x = key := by omega
    exact habs (hxk ▸ hm1.2 x (hm2.1 x hx))
  have h1 := splitK_elems false t key
  have h2 := splitK_elems true (splitK false t key).2 key
  rw [hint, List.nil_append] at h2
  rw [h2, h1]

theorem detach_sizeOk (endIncl : Bool) (t : TNode) (bk ek : Int) (h : sizeOk t) :
    sizeOk (detach_node_key_interval endIncl t bk ek).1 := by
  rw [detach_node_key_interval_eq]
  have h1 := splitK_sizeOk false t bk h
  have h2 := splitK_sizeOk endIncl (splitK false t bk).2 ek h1.2
  exact mergeH_sizeOk _ _ h1.1 h2.2

/-! ## Lemmas about the legacy (treap.h) container -/

theorem nodeOfKey_some (t : TNode) (key : Int) (n : TNode)
    (h : nodeOfKey t key = some n) : rootPay n = key ∧ key ∈ elems t := by
  induction t with
  | nil => simp [nodeOfKey] at h
  | node p k l r sz ihl ihr =>
    rw [nodeOfKey] at h
    by_cases h1 : key = k
    · rw [if_pos h1] at h
      cases h
      simp [h1]
    · rw [if_neg h1] at h
      by_cases h2 : key < k
      · rw [if_pos h2] at h
        rcases ihl h with ⟨hpay, hmem⟩
        exact ⟨hpay, by simp; tauto⟩
      · rw [if_neg h2] at h
        rcases ihr h with ⟨hpay, hmem⟩
        exact ⟨hpay, by simp; tauto⟩

theorem nodeOfKey_present (t : TNode) (key : Int) (hs : Sorted t)
    (hmem : key ∈ elems t) : ∃ n, nodeOfKey t key = some n ∧ rootPay n = key := by
  induction t with
  | nil => simp at hmem
  | node p k l r sz ihl ihr =>
    rcases sorted_node_iff.mp hs with ⟨hsl, hsr, hlk, hkr⟩
    rw [nodeOfKey]
    by_cases h1 : key = k
    · rw [if_pos h1]
      exact ⟨_, rfl, h1.symm⟩
    · rw [if_neg h1]
      by_cases h2 : key < k
      · rw [if_pos h2]
        refine ihl hsl ?_
        simp only [elems_node, List.mem_append, List.mem_cons] at hmem
        rcases hmem with hm | hm | hm
        · exact hm
        · exact absurd hm h1
        · exact absurd (hkr key hm) (by omega)
      · rw [if_neg h2]
        refine ihr hsr ?_
        simp only [elems_node, List.mem_append, List.mem_cons] at hmem
        rcases hmem with hm | hm | hm
        · exact absurd (hlk key hm) (by omega)
        · exact absurd hm h1
        · exact hm

theorem nodeOfKey_absent (t : TNode) (key : Int) (habs : key ∉ elems t) :
    nodeOfKey t key = none := by
  cases h : nodeOfKey t key with
  | none => rfl
  | some n => exact absurd (nodeOfKey_some t key n h).2 habs

theorem contains_iff_mem (t : TNode) (key : Int) (hs : Sorted t) :
    contains t key = true ↔ key ∈ elems t := by
  constructor
  · intro h
    rw [contains, Option.isSome_iff_exists] at h
    rcases h with ⟨n, hn⟩
    exact (nodeOfKey_some t key n hn).2
  · intro hmem
    rcases nodeOfKey_present t key hs hmem with ⟨n, hn, _⟩
    simp [contains, hn]

/-- `Treap::insert` of a present key returns without touching the tree. -/
theorem insert_present (t : TNode) (value : Int) (prio : Nat)
    (hc : contains t value = true) : insert t value prio = t := by
  rw [insert, if_pos hc]

theorem insert_sizeOk (t : TNode) (value : Int) (prio : Nat) (h : sizeOk t) :
    sizeOk (insert t value prio) := by
  rw [insert]
  by_cases hc : contains t value = true
  · rw [if_pos hc]; exact h
  · rw [if_neg hc]
    by_cases hnil : t = .nil
    · rw [if_pos hnil]
      exact ⟨rfl, trivial, trivial⟩
    · rw [if_neg hnil]
      have hsp := splitH_eq_splitK t value ▸ splitK_sizeOk false t value h
      have hnd : sizeOk (.node prio value .nil .nil 1) := ⟨rfl, trivial, trivial⟩
      simp only [splitH_eq_splitK]
      exact mergeH_sizeOk _ _ (splitK_sizeOk false t value h).2
        (mergeH_sizeOk _ _ (splitK_sizeOk false t value h).1 hnd)

/-- `Treap::remove` of an absent key throws "Element not found". -/
theorem remove_absent (t : TNode) (value : Int) (hs : Sorted t)
    (habs : value ∉ elems t) : remove t value = .error "Element not found" := by
  rw [remove]
  have hmid : (splitH (splitH t value).2 (value + 1)).1 = .nil := by
    rw [splitH_eq_splitK, splitH_eq_splitK]
    rw [← elems_eq_nil_iff]
    by_contra hne
    rcases List.exists_mem_of_ne_nil _ hne with ⟨x, hx⟩
    have hb1 := splitK_bounds false t value hs
    have hs1 := splitK_sorted false t value hs
    have hb2 := splitK_bounds false (splitK false t value).2 (value + 1) hs1.2
    have hm1 := splitK_mem false t value
    have hm2 := splitK_mem false (splitK false t value).2 (value + 1)
    have h1 := hb2.1 x hx
    have h2 := hb1.2 x (hm2.1 x hx)
    simp only [if_neg Bool.false_ne_true] at h1 h2
    have hxv : x = value := by omega
    exact habs (hxv ▸ hm1.2 x (hm2.1 x hx))
  rw [if_pos hmid]

theorem remove_sizeOk (t : TNode) (value : Int) (t' : TNode) (h : sizeOk t)
    (hok : remove t value = .ok t') : sizeOk t' := by
  rw [remove] at hok
  by_cases hmid : (splitH (splitH t value).2 (value + 1)).1 = .nil
  · rw [if_pos hmid] at hok
    cases hok
  · rw [if_neg hmid] at hok
    cases hok
    have h1 := splitK_sizeOk false t value h
    have h2 := splitK_sizeOk false (splitK false t value).2 (value + 1) h1.2
    simp only [splitH_eq_splitK]
    exact mergeH_sizeOk _ _ h1.1 h2.2

/-- Unique decomposition of a list at an element absent from both
prefixes. -/
theorem append_cons_eq_append_cons {α : Type} (a : α) (A B C D : List α) :
    a ∉ A → a ∉ C → A ++ a :: B = C ++ a :: D → A = C ∧ B = D := by
  induction A generalizing C with
  | nil =>
    intro hA hC h
    cases C with
    | nil => simpa using h
    | cons c C2 =>
      simp only [List.nil_append, List.cons_append, List.cons_eq_cons] at h
      refine absurd ?_ hC
      rw [h.1]
      exact List.mem_cons_self c C2
  | cons x A2 ih =>
    intro hA hC h
    cases C with
    | nil =>
      simp only [List.nil_append, List.cons_append, List.cons_eq_cons] at h
      refine absurd ?_ hA
      rw [h.1]
      exact List.mem_cons_self a A2
    | cons c C2 =>
      simp only [List.cons_append, List.cons_eq_cons] at h
      rcases ih C2 (fun hx => hA (List.mem_cons_of_mem x hx))
        (fun hx => hC (List.mem_cons_of_mem c hx)) h.2 with ⟨hAC, hBD⟩
      exact ⟨by rw [h.1, hAC], hBD⟩

/-! ## Rank correctness for Treap::orderOfKey / keyOfOrder -/

theorem orderOfKeyAux_spec (t : TNode) (key : Int) (A B : List Int)
    (hsz : sizeOk t) (hs : Sorted t) (hdec : elems t = A ++ key :: B) :
    orderOfKeyAux t key = .ok (A.length + 1) := by
  induction t generalizing A B with
  | nil => simp at hdec
  | node p k l r sz ihl ihr =>
    rcases hsz with ⟨hszeq, hl, hr⟩
    rcases sorted_node_iff.mp hs with ⟨hsl, hsr, hlk, hkr⟩
    have hnd : (elems (TNode.node p k l r sz)).Nodup := hs.imp (fun hab => ne_of_lt hab)
    have hkeyA : key ∉ A := by
      rw [hdec] at hnd
      rcases List.nodup_append.mp hnd with ⟨-, -, hdisj⟩
      exact fun hx => hdisj hx (List.mem_cons_self key B)
    rw [orderOfKeyAux]
    by_cases h1 : key = k
    · subst h1
      rw [if_pos rfl]
      have hknotl : key ∉ elems l := fun hmem => absurd (hlk key hmem) (lt_irrefl key)
      have huniq := append_cons_eq_append_cons key (elems l) (elems r) A B hknotl hkeyA
        (by rw [← elems_node p key l r sz, hdec])
      rw [storedSize_eq_length_elems hl, huniq.1]
      rw [Nat.add_comm]
    · rw [if_neg h1]
      have hkeymem : key ∈ elems (TNode.node p k l r sz) := by rw [hdec]; simp
      by_cases h2 : key < k
      · rw [if_pos h2]
        have hkeyl : key ∈ elems l := by
          simp only [elems_node, List.mem_append, List.mem_cons] at hkeymem
          rcases hkeymem with hm | hm | hm
          · exact hm
          · exact absurd hm h1
          · exact absurd (hkr key hm) (by omega)
        rcases List.append_of_mem hkeyl with ⟨A2, B2, hldec⟩
        have hkeyA2 : key ∉ A2 := by
          have hndl : (elems l).Nodup := hsl.imp (fun hab => ne_of_lt hab)
          rw [hldec] at hndl
          rcases List.nodup_append.mp hndl with ⟨-, -, hdisj⟩
          exact fun hx => hdisj hx (List.mem_cons_self key B2)
        have hfulldec : elems (TNode.node p k l r sz) = A2 ++ key :: (B2 ++ k :: elems r) := by
          rw [elems_node, hldec]
          simp
        have huniq := append_cons_eq_append_cons key A2 (B2 ++ k :: elems r) A B hkeyA2 hkeyA
          (by rw [← hfulldec, hdec])
        rw [ihl A2 B2 hl hsl hldec, huniq.1]
      · rw [if_neg h2]
        have hkeyr : key ∈ elems r := by
          simp only [elems_node, List.mem_append, List.mem_cons] at hkeymem
          rcases hkeymem with hm | hm | hm
          · exact absurd (hlk key hm) (by omega)
          · exact absurd hm h1
          · exact hm
        rcases List.append_of_mem hkeyr with ⟨A2, B2, hrdec⟩
        have hkeyA2 : key ∉ A2 := by
          have hndr : (elems r).Nodup := hsr.imp (fun hab => ne_of_lt hab)
          rw [hrdec] at hndr
          rcases List.nodup_append.mp hndr with ⟨-, -, hdisj⟩
          exact fun hx => hdisj hx (List.mem_cons_self key B2)
        have hkeypre : key ∉ elems l ++ k :: A2 := by
          intro hx
          rcases List.mem_append.mp hx with hx | hx
          · exact absurd (hlk key hx) (by omega)
          · rcases List.mem_cons.mp hx with hx | hx
            · exact h1 hx
            · exact hkeyA2 hx
        have hfulldec : elems (TNode.node p k l r sz) =
            (elems l ++ k :: A2) ++ key :: B2 := by
          rw [elems_node, hrdec]
          simp
        have huniq := append_cons_eq_append_cons key (elems l ++ k :: A2) B2 A B hkeypre hkeyA
          (by rw [← hfulldec, hdec])
        rw [ihr A2 B2 hr hsr hrdec]
        simp only [Except.map]
        have hAlen : A.length = (elems l).length + 1 + A2.length := by
          rw [← huniq.1]
          simp
          omega
        rw [storedSize_eq_length_elems hl, hAlen]
        congr 1
        omega

theorem orderOfKeyAux_absent (t : TNode) (key : Int) (habs : key ∉ elems t) :
    orderOfKeyAux t key = .error "Element not found" := by
  induction t with
  | nil => rfl
  | node p k l r sz ihl ihr =>
    rw [orderOfKeyAux]
    have h1 : key ≠ k := fun h => habs (h ▸ rootPay_mem_elems)
    rw [if_neg h1]
    by_cases h2 : key < k
    · rw [if_pos h2]
      exact ihl (fun hx => habs (by simp; tauto))
    · rw [if_neg h2]
      rw [ihr (fun hx => habs (by simp; tauto))]
      rfl

/-- For a present key, `orderOfKey` returns its 0-based in-order rank
and `keyOfOrder` inverts it. -/
theorem orderOfKey_keyOfOrder (t : TNode) (key : Int) (hsz : sizeOk t) (hs : Sorted t)
    (hmem : key ∈ elems t) :
    ∃ i, orderOfKey t key = .ok i ∧ keyOfOrder t i = .ok key := by
  rcases List.append_of_mem hmem with ⟨A, B, hdec⟩
  have haux := orderOfKeyAux_spec t key A B hsz hs hdec
  refine ⟨A.length, ?_, ?_⟩
  · rw [orderOfKey, haux]
    rfl
  · have hlen : (elems t).length = A.length + 1 + B.length := by
      rw [hdec]
      simp
      omega
    have hstored : storedSize t = (elems t).length := storedSize_eq_length_elems hsz
    have hlt : A.length < storedSize t := by omega
    have hreal : A.length + 1 ≤ realSize t := by
      rw [← length_elems]
      omega
    rcases nodeOfOrderLoop_spec t (A.length + 1) hsz (by omega) hreal with ⟨n, hget, hloop⟩
    have hpay : rootPay n = key := by
      have hmap : (elems t)[A.length]? = some (rootPay n) := by
        rw [← rootPay_map_inorderNodes]
        rw [List.getElem?_map]
        simp only [Nat.add_sub_cancel] at hget
        rw [hget]
        rfl
      rw [hdec, List.getElem?_append_right (le_refl A.length)] at hmap
      simp at hmap
      omega
    rw [keyOfOrder, nodeOfOrderT, if_neg (by omega), if_neg (by omega)]
    rw [hloop]
    simp [Except.map, hpay]

/-- For an absent key, `orderOfKey` throws "Element not found". -/
theorem orderOfKey_absent (t : TNode) (key : Int) (habs : key ∉ elems t) :
    orderOfKey t key = .error "Element not found" := by
  rw [orderOfKey, orderOfKeyAux_absent t key habs]
  rfl

/-! ## The nstd treap's own order-statistic queries
(treap.hpp:634-647): `key_of_order` and `order_of_key`.  `order_of_key`
is `node_of_key(key)->order()`; `key_of_order` guards the index and
calls the node-level `node_of_order`.  `node_of_key` is under src/
(treap.hpp:572-588) and embedded literally below; the node-level
members `order()` and `node_of_order(index)` (and the `end_node()`
sentinel they start from) are not in the `treap_base.hpp` revision
under src/ and are modelled from the spec where noted. -/

/-- `treap::node_of_key` (treap.hpp:572-588): comparator descent; the
`end_node()` sentinel returned for an absent key is `none`. -/
def node_of_key : TNode → Int → Option TNode
  | .nil, _ => none
  | .node p k l r sz, key =>
    if key < k then node_of_key l key
    else if k < key then node_of_key r key
    else some (.node p k l r sz)

/-- Modelled from the spec: the node-level member `order()` called by
`treap::order_of_key` (treap.hpp:643-647) is missing from the
`treap_base.hpp` revision under src/.  Spec section 4.5 pins the
behaviour — "`order_of_key(key)`: O(log n) via augmented sizes" — and
the doc comment above `order_of_key` (treap.hpp:215-221) pins its
value: "proper index, when the tree has the key".  The rank of the
found node's key is recomputed from the root by the comparator descent
that accumulates `left_size() + 1` on every right turn, i.e. via the
augmented sizes. -/
def order : TNode → Int → Nat → Nat
  | .nil, _, acc => acc
  | .node _ k l r _, key, acc =>
    if key < k then order l key acc
    else if k < key then order r key (acc + storedSize l + 1)
    else acc + storedSize l

/-- `treap::order_of_key` (treap.hpp:643-647):
`return node_of_key(key)->order();`.  When `node_of_key` returns the
`end_node()` sentinel, `order()` on it yields `size()` — modelled from
the spec and the doc comment (treap.hpp:215-221): "proper index, when
the tree has the key, size() otherwise"; not-found is signalled by the
`size()` return value, not by an exception. -/
def order_of_key (t : TNode) (key : Int) : Nat :=
  match node_of_key t key with
  | some _ => order t key 0
  | none => storedSize t

/-- Modelled from the spec: the node-level `node_of_order(index)`
member called by `treap::key_of_order` (treap.hpp:634-641) is missing
from the `treap_base.hpp` revision under src/.  Spec section 4.3
describes the descent — "comparing `index+1` against `left_size` at
each step and recursing into the side that contains the target rank,
subtracting the consumed count when descending right" — which is
exactly the loop `nodeOfOrderLoop` embedded above, entered at the
1-based rank `index + 1`. -/
def node_node_of_order (t : TNode) (index : Nat) : Except String TNode :=
  nodeOfOrderLoop t (index + 1)

/-- `treap::key_of_order` (treap.hpp:634-641): throw
`std::out_of_range("Index is out of bounds")` when `index >= size()`,
otherwise `root()->node_of_order(index)->get_key()`. -/
def key_of_order (t : TNode) (index : Nat) : Except String Int :=
  if index ≥ storedSize t then .error "Index is out of bounds"
  else (node_node_of_order t index).map rootPay

theorem node_of_key_some (t : TNode) (key : Int) (n : TNode)
    (h : node_of_key t key = some n) : key ∈ elems t := by
  induction t with
  | nil => simp [node_of_key] at h
  | node p k l r sz ihl ihr =>
    rw [node_of_key] at h
    by_cases h1 : key < k
    · rw [if_pos h1] at h
      have := ihl h
      simp
      tauto
    · rw [if_neg h1] at h
      by_cases h2 : k < key
      · rw [if_pos h2] at h
        have := ihr h
        simp
        tauto
      · have : key = k := by omega
        simp [this]

theorem node_of_key_absent (t : TNode) (key : Int) (habs : key ∉ elems t) :
    node_of_key t key = none := by
  cases h : node_of_key t key with
  | none => rfl
  | some n => exact absurd (node_of_key_some t key n h) habs

theorem node_of_key_present (t : TNode) (key : Int) (hs : Sorted t)
    (hmem : key ∈ elems t) : ∃ n, node_of_key t key = some n := by
  induction t with
  | nil => simp at hmem
  | node p k l r sz ihl ihr =>
    rcases sorted_node_iff.mp hs with ⟨hsl, hsr, hlk, hkr⟩
    rw [node_of_key]
    by_cases h1 : key < k
    · rw [if_pos h1]
      refine ihl hsl ?_
      simp only [elems_node, List.mem_append, List.mem_cons] at hmem
      rcases hmem with hm | hm | hm
      · exact hm
      · omega
      · exact absurd (hkr key hm) (by omega)
    · rw [if_neg h1]
      by_cases h2 : k < key
      · rw [if_pos h2]
        refine ihr hsr ?_
        simp only [elems_node, List.mem_append, List.mem_cons] at hmem
        rcases hmem with hm | hm | hm
        · exact absurd (hlk key hm) (by omega)
        · omega
        · exact hm
      · rw [if_neg h2]
        exact ⟨_, rfl⟩

/-- The modelled rank descent returns the accumulator plus the 0-based
in-order position of the key. -/
theorem order_spec (t : TNode) (key : Int) (A B : List Int) (acc : Nat)
    (hsz : sizeOk t) (hs : Sorted t) (hdec : elems t = A ++ key :: B) :
    order t key acc = acc + A.length := by
  induction t generalizing A B acc with
  | nil => simp at hdec
  | node p k l r sz ihl ihr =>
    rcases hsz with ⟨hszeq, hl, hr⟩
    rcases sorted_node_iff.mp hs with ⟨hsl, hsr, hlk, hkr⟩
    have hnd : (elems (TNode.node p k l r sz)).Nodup := hs.imp (fun hab => ne_of_lt hab)
    have hkeyA : key ∉ A := by
      rw [hdec] at hnd
      rcases List.nodup_append.mp hnd with ⟨-, -, hdisj⟩
      exact fun hx => hdisj hx (List.mem_cons_self key B)
    rw [order]
    by_cases h1 : key < k
    · rw [if_pos h1]
      have hkeymem : key ∈ elems (TNode.node p k l r sz) := by rw [hdec]; simp
      have hkeyl : key ∈ elems l := by
        simp only [elems_node, List.mem_append, List.mem_cons] at hkeymem
        rcases hkeymem with hm | hm | hm
        · exact hm
        · omega
        · exact absurd (hkr key hm) (by omega)
      rcases List.append_of_mem hkeyl with ⟨A2, B2, hldec⟩
      have hkeyA2 : key ∉ A2 := by
        have hndl : (elems l).Nodup := hsl.imp (fun hab => ne_of_lt hab)
        rw [hldec] at hndl
        rcases List.nodup_append.mp hndl with ⟨-, -, hdisj⟩
        exact fun hx => hdisj hx (List.mem_cons_self key B2)
      have hfulldec : elems (TNode.node p k l r sz) = A2 ++ key :: (B2 ++ k :: elems r) := by
        rw [elems_node, hldec]
        simp
      have huniq := append_cons_eq_append_cons key A2 (B2 ++ k :: elems r) A B hkeyA2 hkeyA
        (by rw [← hfulldec, hdec])
      rw [ihl A2 B2 acc hl hsl hldec, huniq.1]
    · rw [if_neg h1]
      by_cases h2 : k < key
      · rw [if_pos h2]
        have hkeymem : key ∈ elems (TNode.node p k l r sz) := by rw [hdec]; simp
        have hkeyr : key ∈ elems r := by
          simp only [elems_node, List.mem_append, List.mem_cons] at hkeymem
          rcases hkeymem with hm | hm | hm
          · exact absurd (hlk key hm) (by omega)
          · omega
          · exact hm
        rcases List.append_of_mem hkeyr with ⟨A2, B2, hrdec⟩
        have hkeyA2 : key ∉ A2 := by
          have hndr : (elems r).Nodup := hsr.imp (fun hab => ne_of_lt hab)
          rw [hrdec] at hndr
          rcases List.nodup_append.mp hndr with ⟨-, -, hdisj⟩
          exact fun hx => hdisj hx (List.mem_cons_self key B2)
        have hkeypre : key ∉ elems l ++ k :: A2 := by
          intro hx
          rcases List.mem_append.mp hx with hx | hx
          · exact absurd (hlk key hx) (by omega)
          · rcases List.mem_cons.mp hx with hx | hx
            · omega
            · exact hkeyA2 hx
        have hfulldec : elems (TNode.node p k l r sz) =
            (elems l ++ k :: A2) ++ key :: B2 := by
          rw [elems_node, hrdec]
          simp
        have huniq := append_cons_eq_append_cons key (elems l ++ k :: A2) B2 A B hkeypre hkeyA
          (by rw [← hfulldec, hdec])
        rw [ihr A2 B2 (acc + storedSize l + 1) hr hsr hrdec, ← huniq.1]
        rw [storedSize_eq_length_elems hl]
        simp
        omega
      · rw [if_neg h2]
        have hkeq : key = k := by omega
        have hknotl : key ∉ elems l := fun hmem => absurd (hlk key hmem) (by omega)
        have huniq := append_cons_eq_append_cons key (elems l) (elems r) A B hknotl hkeyA
          (by rw [hkeq] at hdec ⊢; rw [← elems_node p k l r sz, hdec])
        rw [storedSize_eq_length_elems hl, huniq.1]

/-- The 1-based rank-descent loop, entered at the rank found in a
sorted decomposition, returns the node carrying the key. -/
theorem rank_loop_pay (t : TNode) (key : Int) (A B : List Int) (hsz : sizeOk t)
    (hdec : elems t = A ++ key :: B) :
    ∃ n, nodeOfOrderLoop t (A.length + 1) = .ok n ∧ rootPay n = key := by
  have hlen : (elems t).length = A.length + 1 + B.length := by
    rw [hdec]
    simp
    omega
  have hreal : A.length + 1 ≤ realSize t := by
    rw [← length_elems]
    omega
  rcases nodeOfOrderLoop_spec t (A.length + 1) hsz (by omega) hreal with ⟨n, hget, hloop⟩
  refine ⟨n, hloop, ?_⟩
  have hmap : (elems t)[A.length]? = some (rootPay n) := by
    rw [← rootPay_map_inorderNodes, List.getElem?_map]
    simp only [Nat.add_sub_cancel] at hget
    rw [hget]
    rfl
  rw [hdec, List.getElem?_append_right (le_refl A.length)] at hmap
  simp at hmap
  omega

/-- For a present key, the nstd `order_of_key` returns its 0-based
in-order rank (in particular a value `< size()`) and `key_of_order`
inverts it. -/
theorem key_of_order_order_of_key (t : TNode) (key : Int) (hsz : sizeOk t) (hs : Sorted t)
    (hmem : key ∈ elems t) :
    order_of_key t key < storedSize t ∧
      key_of_order t (order_of_key t key) = .ok key := by
  rcases List.append_of_mem hmem with ⟨A, B, hdec⟩
  rcases node_of_key_present t key hs hmem with ⟨n, hnok⟩
  have hord : order_of_key t key = A.length := by
    rw [order_of_key, hnok]
    show order t key 0 = A.length
    rw [order_spec t key A B 0 hsz hs hdec]
    omega
  have hlen : (elems t).length = A.length + 1 + B.length := by
    rw [hdec]
    simp
    omega
  have hlt : A.length < storedSize t := by
    rw [storedSize_eq_length_elems hsz]
    omega
  rcases rank_loop_pay t key A B hsz hdec with ⟨m, hloop, hpay⟩
  constructor
  · rw [hord]
    exact hlt
  · rw [hord, key_of_order, if_neg (by omega), node_node_of_order, hloop]
    simp [Except.map, hpay]

/-- For an absent key, the nstd `order_of_key` signals not-found by
returning `size()`. -/
theorem order_of_key_absent (t : TNode) (key : Int) (habs : key ∉ elems t) :
    order_of_key t key = storedSize t := by
  rw [order_of_key, node_of_key_absent t key habs]

/-! ## Implicit container operation lemmas -/

theorem construct_node_sizeOk (key : Int) (prio : Nat) : sizeOk (construct_node key prio) :=
  ⟨rfl, trivial, trivial⟩

theorem splitI_elems (t : TNode) (index : Nat) (h : sizeOk t) :
    elems (splitI t index).1 = (elems t).take index ∧
      elems (splitI t index).2 = (elems t).drop index := by
  rcases splitI_inorder t index h with ⟨h1, h2⟩
  constructor
  · rw [elems_eq_map_snd_inorder, h1, List.map_take, ← elems_eq_map_snd_inorder]
  · rw [elems_eq_map_snd_inorder, h2, List.map_drop, ← elems_eq_map_snd_inorder]

theorem insert_nodeI_elems (t nd : TNode) (index : Nat) (h : sizeOk t) :
    elems (insert_nodeI t nd index) =
      (elems t).take index ++ elems nd ++ (elems t).drop index := by
  rw [insert_nodeI]
  rcases splitI_elems t index h with ⟨h1, h2⟩
  rw [mergeI_elems, mergeI_elems, h1, h2]

theorem insert_nodeI_sizeOk (t nd : TNode) (index : Nat) (ht : sizeOk t) (hnd : sizeOk nd) :
    sizeOk (insert_nodeI t nd index) := by
  rw [insert_nodeI]
  rcases splitI_sizeOk t index ht with ⟨h1, h2⟩
  exact mergeI_sizeOk _ _ (mergeI_sizeOk _ _ h1 hnd) h2

/-- `emplace` clamps the index to the current size and inserts the new
value there, shifting the tail one position right. -/
theorem emplaceI_elems (t : TNode) (index : Nat) (v : Int) (p : Nat) (h : sizeOk t) :
    elems (emplaceI t index v p) =
      (elems t).take (min index (realSize t)) ++
        v :: (elems t).drop (min index (realSize t)) := by
  rw [emplaceI]
  have hstored := storedSize_eq_realSize h
  by_cases hgt : index > storedSize t
  · rw [if_pos hgt]
    have hmin : min index (realSize t) = realSize t := by omega
    rw [insert_nodeI_elems t _ _ h, hmin, hstored]
    simp [construct_node]
  · rw [if_neg hgt]
    have hmin : min index (realSize t) = index := by omega
    rw [insert_nodeI_elems t _ _ h, hmin]
    simp [construct_node]

theorem emplaceI_sizeOk (t : TNode) (index : Nat) (v : Int) (p : Nat) (h : sizeOk t) :
    sizeOk (emplaceI t index v p) := by
  rw [emplaceI]
  by_cases hgt : index > storedSize t
  · rw [if_pos hgt]
    exact insert_nodeI_sizeOk _ _ _ h (construct_node_sizeOk v p)
  · rw [if_neg hgt]
    exact insert_nodeI_sizeOk _ _ _ h (construct_node_sizeOk v p)

theorem detach_node_with_indexI_elems (t : TNode) (index : Nat) (h : sizeOk t) :
    elems (detach_node_with_indexI t index).1 =
      (elems t).take index ++ (elems t).drop (index + 1) := by
  rw [detach_node_with_indexI]
  rcases splitI_elems t index h with ⟨h1, h2⟩
  rcases splitI_sizeOk t index h with ⟨hs1, hs2⟩
  rcases splitI_elems _ 1 hs2 with ⟨h3, h4⟩
  rw [mergeI_elems, h1, h4, h2, List.drop_drop]

theorem eraseI_elems (t : TNode) (index : Nat) (h : sizeOk t) (hlt : index < realSize t) :
    elems (eraseI t index) = (elems t).take index ++ (elems t).drop (index + 1) := by
  rw [eraseI, if_neg (by rw [storedSize_eq_realSize h]; omega)]
  exact detach_node_with_indexI_elems t index h

theorem eraseI_sizeOk (t : TNode) (index : Nat) (h : sizeOk t) : sizeOk (eraseI t index) := by
  rw [eraseI]
  by_cases hge : index ≥ storedSize t
  · rw [if_pos hge]
    exact h
  · rw [if_neg hge]
    rw [detach_node_with_indexI]
    rcases splitI_sizeOk t index h with ⟨hs1, hs2⟩
    rcases splitI_sizeOk _ 1 hs2 with ⟨hs3, hs4⟩
    exact mergeI_sizeOk _ _ hs1 hs4

/-! ## Reachable states of the key-ordered nstd treap (public mutating
operations starting from the empty container; the priority drawn by the
random generator is universally quantified) -/

inductive ReachableK : TNode → Prop where
  | empty : ReachableK .nil
  | ins (t : TNode) (key : Int) (prio : Nat) :
      ReachableK t → ReachableK (emplace_with_key t key prio).1
  | del (t : TNode) (key : Int) : ReachableK t → ReachableK (erase_key t key)
  | delInterval (t : TNode) (bk ek : Int) :
      ReachableK t → ReachableK (erase_key_interval t bk ek)
  | delIntervalEnd (t : TNode) (bk ek : Int) :
      ReachableK t → ReachableK (erase_key_interval_with_end t bk ek)

theorem reachableK_sorted (t : TNode) (h : ReachableK t) : Sorted t := by
  induction h with
  | empty => exact List.Pairwise.nil
  | ins t key prio _ ih => exact emplace_with_key_sorted t key prio ih
  | del t key _ ih => exact erase_key_sorted t key ih
  | delInterval t bk ek _ ih => exact erase_key_interval_sorted t bk ek ih
  | delIntervalEnd t bk ek _ ih => exact erase_key_interval_with_end_sorted t bk ek ih

/-! ## Deep copy of the legacy tree (treap.h), kept for context: the
copy preserves the whole in-order traversal, priorities included, and
re-establishes Invariant C through `setLeft`/`setRight`. -/

theorem copy_node_eq (p : Nat) (k : Int) (l r : TNode) (sz : Nat) :
    copy (.node p k l r sz) =
      .node p k (copy l) (copy r) (storedSize (copy l) + storedSize (copy r) + 1) := by
  rw [copy]
  by_cases hl : l = .nil
  · subst hl
    by_cases hr : r = .nil
    · subst hr
      simp [copy]
    · rw [if_pos rfl, if_neg hr]
      simp [copy]
  · rw [if_neg hl]
    by_cases hr : r = .nil
    · subst hr
      rw [if_pos rfl]
      simp [copy]
    · rw [if_neg hr]
      rfl

theorem copy_inorder (t : TNode) : inorder (copy t) = inorder t := by
  induction t with
  | nil => rfl
  | node p k l r sz ihl ihr => rw [copy_node_eq, inorder_node, ihl, ihr, inorder_node]

theorem copy_sizeOk (t : TNode) : sizeOk (copy t) := by
  induction t with
  | nil => trivial
  | node p k l r sz ihl ihr =>
    rw [copy_node_eq]
    exact ⟨rfl, ihl, ihr⟩

/-! ## Claim theorems -/

/-- Multiset of nodes (priority, payload pairs) of a tree. -/
def nodesMS (t : TNode) : Multiset (Nat × Int) := (inorder t : Multiset (Nat × Int))

/-- Example trees used by the witnesses. -/
def exA : TNode := .node 5 1 .nil .nil 1

def exB : TNode := .node 3 2 .nil .nil 1

def exT : TNode := .node 10 5 (.node 3 2 .nil .nil 1) (.node 7 8 .nil .nil 1) 3

def exOne : TNode := .node 7 1 .nil .nil 1

/-- C1: for treap trees `A`, `B` (keyed: `treap.h` `TreapNode::merge`
and the stack-based `treap.hpp` `treap::merge`) and `a`, `b` (implicit:
`implicit_treap::merge`) satisfying the heap property and the size
invariant, with every element of the first preceding every element of
the second in the relevant order, merge returns a tree whose node
multiset is the union, whose in-order traversal is the concatenation of
the two traversals, and which satisfies the heap property again. -/
theorem claim1_merge_correct (A B a b : TNode)
    (hhA : heapOk A) (hhB : heapOk B) (hsA : sizeOk A) (hsB : sizeOk B)
    (hord : ∀ x ∈ elems A, ∀ y ∈ elems B, x < y)
    (hha : heapOk a) (hhb : heapOk b) (hsa : sizeOk a) (hsb : sizeOk b) :
    inorder (mergeH A B) = inorder A ++ inorder B ∧
    nodesMS (mergeH A B) = nodesMS A + nodesMS B ∧
    heapOk (mergeH A B) ∧
    mergeIter A B = mergeH A B ∧
    inorder (mergeI a b) = inorder a ++ inorder b ∧
    nodesMS (mergeI a b) = nodesMS a + nodesMS b ∧
    heapOk (mergeI a b) := by
  refine ⟨mergeH_inorder A B hord, ?_, (mergeH_heapOk A B hhA hhB).1,
    mergeIter_eq_mergeH A B, mergeI_inorder a b, ?_, (mergeI_heapOk a b hha hhb).1⟩
  · rw [nodesMS, nodesMS, nodesMS, mergeH_inorder A B hord]
    exact_mod_cast rfl
  · rw [nodesMS, nodesMS, nodesMS, mergeI_inorder a b]
    exact_mod_cast rfl

/-- Witness for C1 at concrete one-node trees. -/
theorem claim1_merge_correct_witness :
    inorder (mergeH exA exB) = inorder exA ++ inorder exB ∧ heapOk (mergeH exA exB) ∧
      heapOk (mergeI exA exB) :=
  have h := claim1_merge_correct exA exB exA exB (by decide) (by decide) (by decide)
    (by decide) (by decide) (by decide) (by decide) (by decide) (by decide)
  ⟨h.1, h.2.2.1, h.2.2.2.2.2.2⟩

/-- C2: in every state of the key-ordered nstd treap reachable from the
empty container by public mutating operations (insert/emplace,
erase_key, erase_key_interval and its closed-end variant, under
arbitrary drawn priorities), the in-order key sequence is strictly
increasing under the comparator; in particular no two equal keys are
simultaneously present. -/
theorem claim2_inorder_strictly_increasing (t : TNode) (h : ReachableK t) :
    (elems t).Pairwise (· < ·) ∧ (elems t).Nodup :=
  have hs := reachableK_sorted t h
  ⟨hs, hs.imp (fun hab => ne_of_lt hab)⟩

/-- Witness for C2: a state reached by one insertion. -/
theorem claim2_inorder_strictly_increasing_witness :
    (elems (emplace_with_key .nil 5 3).1).Pairwise (· < ·) ∧
      (elems (emplace_with_key .nil 5 3).1).Nodup :=
  claim2_inorder_strictly_increasing _ (ReachableK.ins .nil 5 3 ReachableK.empty)

/-- C3: every mutating public operation of all three containers
preserves the size invariant `size(node) = 1 + size(left) +
size(right)`: all of them rebuild nodes exclusively through
`set_left`/`set_right` (`setLeft`/`setRight`), which recompute the size
field immediately. -/
theorem claim3_size_invariant :
    (∀ t key prio, sizeOk t → sizeOk (emplace_with_key t key prio).1) ∧
    (∀ t key, sizeOk t → sizeOk (erase_key t key)) ∧
    (∀ t bk ek, sizeOk t → sizeOk (erase_key_interval t bk ek)) ∧
    (∀ t bk ek, sizeOk t → sizeOk (erase_key_interval_with_end t bk ek)) ∧
    (∀ t value prio, sizeOk t → sizeOk (insert t value prio)) ∧
    (∀ t value t2, sizeOk t → remove t value = .ok t2 → sizeOk t2) ∧
    (∀ t i v p, sizeOk t → sizeOk (emplaceI t i v p)) ∧
    (∀ t v i p, sizeOk t → sizeOk (insertI t v i p)) ∧
    (∀ t v p, sizeOk t → sizeOk (push_backI t v p)) ∧
    (∀ t v p, sizeOk t → sizeOk (push_frontI t v p)) ∧
    (∀ t i, sizeOk t → sizeOk (eraseI t i)) ∧
    (∀ t, sizeOk t → sizeOk (pop_backI t)) ∧
    (∀ t, sizeOk t → sizeOk (pop_frontI t)) ∧
    (∀ t1 t2, sizeOk t1 → sizeOk t2 → sizeOk (mergeH t1 t2)) ∧
    (∀ t1 t2, sizeOk t1 → sizeOk t2 → sizeOk (mergeI t1 t2)) ∧
    (∀ incl t key, sizeOk t → sizeOk (splitK incl t key).1 ∧ sizeOk (splitK incl t key).2) ∧
    (∀ t i, sizeOk t → sizeOk (splitI t i).1 ∧ sizeOk (splitI t i).2) := by
  refine ⟨emplace_with_key_sizeOk, ?_, ?_, ?_, insert_sizeOk, ?_, emplaceI_sizeOk, ?_, ?_, ?_,
    eraseI_sizeOk, ?_, ?_, mergeH_sizeOk, mergeI_sizeOk, ?_, splitI_sizeOk⟩
  · intro t key h
    exact detach_sizeOk true t key key h
  · intro t bk ek h
    exact detach_sizeOk false t bk ek h
  · intro t bk ek h
    exact detach_sizeOk true t bk ek h
  · intro t value t2 h hok
    exact remove_sizeOk t value t2 h hok
  · intro t v i p h
    exact emplaceI_sizeOk t i v p h
  · intro t v p h
    exact emplaceI_sizeOk t (storedSize t) v p h
  · intro t v p h
    exact emplaceI_sizeOk t 0 v p h
  · intro t h
    exact eraseI_sizeOk t (storedSize t - 1) h
  · intro t h
    exact eraseI_sizeOk t 0 h
  · intro incl t key h
    exact splitK_sizeOk incl t key h

/-- Witness for C3 at a concrete tree and insertion. -/
theorem claim3_size_invariant_witness : sizeOk (emplace_with_key exT 4 9).1 :=
  claim3_size_invariant.1 exT 4 9 (by decide)

/-- C4: `node_of_order` (`nodeOfOrder`) returns the unique node of
in-order position `index` when `index < size`, the null past-the-end
sentinel when `index == size`, and throws `std::out_of_range` when
`index > size`; being a `const` member it never mutates the tree, which
the pure embedding reflects. -/
theorem claim4_node_of_order (t : TNode) (hs : sizeOk t) :
    (∀ i, i < storedSize t →
        ∃ n, node_of_order t i = .ok (some n) ∧ (inorderNodes t)[i]? = some n) ∧
    node_of_order t (storedSize t) = .ok none ∧
    (∀ i, storedSize t < i →
        node_of_order t i = .error (toString i ++ " index out of bounds")) := by
  refine ⟨?_, ?_, ?_⟩
  · intro i hi
    have hreal : i + 1 ≤ realSize t := by rw [← storedSize_eq_realSize hs]; omega
    rcases nodeOfOrderLoop_spec t (i + 1) hs (by omega) hreal with ⟨n, hget, hloop⟩
    refine ⟨n, ?_, ?_⟩
    · rw [node_of_order, if_neg (by omega), if_neg (by omega), hloop]
      rfl
    · simpa using hget
  · rw [node_of_order, if_pos rfl]
  · intro i hi
    rw [node_of_order, if_neg (by omega), if_pos (by omega)]

/-- Witness for C4 at a three-node tree and rank 1. -/
theorem claim4_node_of_order_witness :
    ∃ n, node_of_order exT 1 = .ok (some n) ∧ (inorderNodes exT)[1]? = some n :=
  (claim4_node_of_order exT (by decide)).1 1 (by decide)

/-- C5: inserting a value whose key is already present returns the pair
(iterator to the existing element, `false`) and performs no mutation at
all: the resulting tree is exactly the previous one, for both
`treap::emplace_with_key` and `Treap::insert`; no error is signalled
(the return type is not fallible). -/
theorem claim5_duplicate_insert (t : TNode) (key : Int) (prio : Nat)
    (hs : Sorted t) (hmem : key ∈ elems t) :
    ∃ n, find t key = some n ∧ rootPay n = key ∧
      emplace_with_key t key prio = (t, (some n, false)) ∧
      insert t key prio = t := by
  rcases find_present t key hs hmem with ⟨n, hf, hpay⟩
  exact ⟨n, hf, hpay, emplace_with_key_present t key prio n hf,
    insert_present t key prio ((contains_iff_mem t key hs).mpr hmem)⟩

/-- Witness for C5: re-inserting key 5 into the tree holding 2, 5, 8. -/
theorem claim5_duplicate_insert_witness :
    ∃ n, find exT 5 = some n ∧ rootPay n = 5 ∧
      emplace_with_key exT 5 42 = (exT, (some n, false)) ∧
      insert exT 5 42 = exT :=
  claim5_duplicate_insert exT 5 42 (by decide) (by decide)

/-- C6 counterexample: `Treap::remove` (treap.h) of a key absent from
the tree does not leave the container unchanged without signalling: it
throws `std::runtime_error("Element not found")`.  Here the tree holds
only the key 1 and key 0 is removed. -/
theorem claim6_counterexample : remove exOne 0 = .error "Element not found" := rfl

/-- C6 amended: erasing an absent target signals no error and leaves
the container unchanged for `treap::erase_key` (treap.hpp; the stored
key sequence is preserved) and for `implicit_treap::erase` with
`index >= size` (hence `pop_back`/`pop_front` of an empty container are
safe no-ops); but `Treap::remove` (treap.h) instead throws
`std::runtime_error("Element not found")` when the key is absent. -/
theorem claim6_amended :
    (∀ t key, Sorted t → key ∉ elems t → elems (erase_key t key) = elems t) ∧
    (∀ t key, Sorted t → key ∉ elems t → remove t key = .error "Element not found") ∧
    (∀ t i, storedSize t ≤ i → eraseI t i = t) ∧
    pop_backI .nil = .nil ∧ pop_frontI .nil = .nil := by
  refine ⟨erase_key_absent_elems, remove_absent, ?_, rfl, rfl⟩
  intro t i hge
  rw [eraseI, if_pos hge]

/-- Witness for C6 (amended) at concrete inputs. -/
theorem claim6_amended_witness :
    elems (erase_key exOne 5) = elems exOne ∧ eraseI exT 3 = exT :=
  ⟨claim6_amended.1 exOne 5 (by decide) (by decide), claim6_amended.2.2.1 exT 3 (by decide)⟩

/-- C7: `key_of_order(order_of_key(k)) == k` for every key currently
present, and `order_of_key` signals not-found for absent keys — for
both cited implementations.  For the nstd treap (treap.hpp:634-647,
node-level `order()`/`node_of_order` modelled from the spec)
`order_of_key` returns the 0-based in-order rank (a value `< size()`)
of a present key and signals not-found by returning `size()` for an
absent one, and `key_of_order` inverts it.  For the legacy treap.h
container, `keyOfOrder(orderOfKey(k)) == k` for present keys and
`orderOfKey` signals not-found by throwing
`std::runtime_error("Element not found")`. -/
theorem claim7_order_key_roundtrip (t : TNode) (hsz : sizeOk t) (hs : Sorted t) :
    (∀ key ∈ elems t, order_of_key t key < storedSize t ∧
        key_of_order t (order_of_key t key) = .ok key) ∧
    (∀ key, key ∉ elems t → order_of_key t key = storedSize t) ∧
    (∀ key ∈ elems t, ∃ i, orderOfKey t key = .ok i ∧ keyOfOrder t i = .ok key) ∧
    (∀ key, key ∉ elems t → orderOfKey t key = .error "Element not found") :=
  ⟨fun key hmem => key_of_order_order_of_key t key hsz hs hmem,
   fun key habs => order_of_key_absent t key habs,
   fun key hmem => orderOfKey_keyOfOrder t key hsz hs hmem,
   fun key habs => orderOfKey_absent t key habs⟩

/-- Witness for C7 at the tree with keys 2, 5, 8 and key 5, for both
implementations. -/
theorem claim7_order_key_roundtrip_witness :
    (order_of_key exT 5 < storedSize exT ∧
        key_of_order exT (order_of_key exT 5) = .ok 5) ∧
      ∃ i, orderOfKey exT 5 = .ok i ∧ keyOfOrder exT i = .ok 5 :=
  ⟨(claim7_order_key_roundtrip exT (by decide) (by decide)).1 5 (by decide),
   (claim7_order_key_roundtrip exT (by decide) (by decide)).2.2.1 5 (by decide)⟩

/-- C10: under the size invariant and `index < size`, the rank-descent
loop of `node_of_order` terminates by returning a node; the trailing
`throw std::runtime_error("Unreachable code")` branch is never
executed. -/
theorem claim10_no_unreachable (t : TNode) (hs : sizeOk t) (i : Nat)
    (hi : i < storedSize t) :
    ∃ n, nodeOfOrderLoop t (i + 1) = .ok n ∧ node_of_order t i = .ok (some n) := by
  have hreal : i + 1 ≤ realSize t := by rw [← storedSize_eq_realSize hs]; omega
  rcases nodeOfOrderLoop_spec t (i + 1) hs (by omega) hreal with ⟨n, hget, hloop⟩
  refine ⟨n, hloop, ?_⟩
  rw [node_of_order, if_neg (by omega), if_neg (by omega), hloop]
  rfl

/-- Witness for C10 at a three-node tree and rank 2. -/
theorem claim10_no_unreachable_witness :
    ∃ n, nodeOfOrderLoop exT (2 + 1) = .ok n ∧ node_of_order exT 2 = .ok (some n) :=
  claim10_no_unreachable exT (by decide) 2 (by decide)

/-- C8: the implicit treap's `insert`/`emplace` clamps the index to
`[0, size]` and places the new element at logical position
`min(index, size)`, shifting the tail one position right and leaving
the other elements and their relative order unchanged; in particular
`push_back(10)`, `push_back(20)`, `insert(15, 1)` yields the sequence
`[10, 15, 20]` and a following `erase(0)` yields `[15, 20]`, for every
outcome of the random priorities. -/
theorem claim8_implicit_insert :
    (∀ t index v p, sizeOk t →
        elems (emplaceI t index v p) =
          (elems t).take (min index (realSize t)) ++
            v :: (elems t).drop (min index (realSize t))) ∧
    (∀ p1 p2 p3 : Nat,
        elems (insertI (push_backI (push_backI .nil 10 p1) 20 p2) 15 1 p3) = [10, 15, 20] ∧
        elems (eraseI (insertI (push_backI (push_backI .nil 10 p1) 20 p2) 15 1 p3) 0) =
          [15, 20]) := by
  refine ⟨fun t index v p h => emplaceI_elems t index v p h, ?_⟩
  intro p1 p2 p3
  have hs0 : sizeOk (.nil : TNode) := trivial
  have he1 : elems (push_backI .nil 10 p1) = [10] := by
    rw [push_backI, emplaceI_elems _ _ _ _ hs0]
    simp
  have hs1 : sizeOk (push_backI .nil 10 p1) := emplaceI_sizeOk _ _ _ _ hs0
  have hr1 : realSize (push_backI .nil 10 p1) = 1 := by
    rw [← length_elems, he1]
    rfl
  have hst1 : storedSize (push_backI .nil 10 p1) = 1 := by
    rw [storedSize_eq_realSize hs1, hr1]
  have he2 : elems (push_backI (push_backI .nil 10 p1) 20 p2) = [10, 20] := by
    rw [push_backI, emplaceI_elems _ _ _ _ hs1, hst1, hr1, he1]
    rfl
  have hs2 : sizeOk (push_backI (push_backI .nil 10 p1) 20 p2) := emplaceI_sizeOk _ _ _ _ hs1
  have hr2 : realSize (push_backI (push_backI .nil 10 p1) 20 p2) = 2 := by
    rw [← length_elems, he2]
    rfl
  have he3 : elems (insertI (push_backI (push_backI .nil 10 p1) 20 p2) 15 1 p3) =
      [10, 15, 20] := by
    rw [insertI, emplaceI_elems _ _ _ _ hs2, hr2, he2]
    rfl
  have hs3 : sizeOk (insertI (push_backI (push_backI .nil 10 p1) 20 p2) 15 1 p3) := by
    rw [insertI]
    exact emplaceI_sizeOk _ _ _ _ hs2
  have hr3 : realSize (insertI (push_backI (push_backI .nil 10 p1) 20 p2) 15 1 p3) = 3 := by
    rw [← length_elems, he3]
    rfl
  refine ⟨he3, ?_⟩
  rw [eraseI_elems _ _ hs3 (by omega), he3]
  rfl

/-- Witness for C8 at a concrete tree and index. -/
theorem claim8_implicit_insert_witness :
    elems (emplaceI exT 1 3 9) =
      (elems exT).take (min 1 (realSize exT)) ++ 3 :: (elems exT).drop (min 1 (realSize exT)) :=
  claim8_implicit_insert.1 exT 1 3 9 (by decide)

end Basics
